import Mathlib

/-!
# FAST-ER `learn_detector.cc`: a shallow embedding

The development follows `src/learn_detector.cc`: the ternary decision tree and its
random generation and mutation, the disc-cached repeatability score, the cooling
schedule and the Boltzmann accept/reject step of the annealing loop.

Conventions.
* `rand()` and `rand_u()` read one shared stream of draws; a position counter is threaded
  through every function that draws.  All statements quantify over the whole stream.
* `int` counters and coordinates are unbounded integers; no statement below depends on
  wrap-around.
* `double` values are exact rationals where the code only adds, divides and compares, and
  real numbers where it calls `exp`.  Where the loop is followed from its initial variables,
  whose `old_cost` is `HUGE_VAL`, costs are real numbers extended by the two infinities and
  NaN (`Dbl`); on finite costs this agrees with the real-valued iteration.
* Where a statement depends on the last place of a result (the score returned by line 250,
  the temperature of line 373, the likelihood of line 595) the arithmetic is IEEE 754:
  every operation is rounded once to the nearest `double`, ties to even, with gradual
  underflow and overflow to an infinity, and the returned score is rounded to `float`.  The
  `exp` of the C library is taken to return the `double` nearest to the exact exponential.
* Reads of an image are total in the counting loops; a bounds-checked copy of the loops
  records the reads that fall outside an image.
-/

set_option autoImplicit false

namespace FastER

/-! ## Random draws -/

/-- The stream of random draws.  The `k`-th call to the generator returns `rand k` when it
is a call of `rand()` and `rand_u k` when it is a call of `rand_u()`. -/
structure Draws where
  rand : Nat → Nat
  rand_u : Nat → ℚ

/-! ## The tree -/

/-- Modelled from the spec: the node type `tree_element` of `faster_tree.h`, which is not
among the sources.  A node is a leaf carrying `is_corner` (all three children absent) or an
internal node carrying `offset_index` and the three children `lt`, `eq`, `gt`. -/
inductive tree_element where
  | leaf (is_corner : Bool) : tree_element
  | node (lt eq gt : tree_element) (offset_index : Nat) : tree_element
  deriving DecidableEq, Repr

/-- The three child roles of an internal node, numbered 0, 1, 2 in `learn_detector`. -/
inductive Branch where
  | lt : Branch
  | eq : Branch
  | gt : Branch
  deriving DecidableEq, Repr

namespace tree_element

/-- Modelled from the spec: `num_nodes()` of `faster_tree.h`, the total node count,
internal nodes and leaves. -/
def num_nodes : tree_element → Nat
  | leaf _ => 1
  | node lt eq gt _ => 1 + lt.num_nodes + eq.num_nodes + gt.num_nodes

/-- Modelled from the spec: `copy()` of `faster_tree.h`, a deep clone. -/
def copy : tree_element → tree_element
  | leaf c => leaf c
  | node lt eq gt o => node lt.copy eq.copy gt.copy o

/-- The node a pointer designates, the pointer being the list of child roles followed from
the root. -/
def subtree : tree_element → List Branch → Option tree_element
  | t, [] => some t
  | leaf _, _ :: _ => none
  | node lt _ _ _, Branch.lt :: p => lt.subtree p
  | node _ eq _ _, Branch.eq :: p => eq.subtree p
  | node _ _ gt _, Branch.gt :: p => gt.subtree p

/-- Assignment through a node pointer: the node at `p` becomes `n`. -/
def replace : tree_element → List Branch → tree_element → tree_element
  | _, [], n => n
  | leaf c, _ :: _, _ => leaf c
  | node lt eq gt o, Branch.lt :: p, n => node (lt.replace p n) eq gt o
  | node lt eq gt o, Branch.eq :: p, n => node lt (eq.replace p n) gt o
  | node lt eq gt o, Branch.gt :: p, n => node lt eq (gt.replace p n) o

/-- Modelled from the spec: the traversal behind `nth_element` of `faster_tree.h`.  Nodes
are listed in pre-order (the node, then its `lt`, `eq`, `gt` subtrees), each with the flag
telling whether it lies on an eq-only path from the root. -/
def elements : tree_element → Bool → List (List Branch × Bool)
  | leaf _, f => [([], f)]
  | node lt eq gt _, f =>
    ([], f) :: ((lt.elements false).map (fun e => (Branch.lt :: e.1, e.2))
      ++ ((eq.elements f).map (fun e => (Branch.eq :: e.1, e.2))
      ++ (gt.elements false).map (fun e => (Branch.gt :: e.1, e.2))))

/-- Modelled from the spec: `nth_element(k)` of `faster_tree.h`, the `k`-th node of the
traversal with its eq-reachability flag; `none` stands for the null node. -/
def nth_element (t : tree_element) (k : Nat) : Option (List Branch × Bool) :=
  (t.elements true).get? k

/-- Invariant 1, computed along the eq spine: the leaf that ends the eq-only path from the
root is not a corner. -/
def eq_leaf_ok : tree_element → Bool
  | leaf c => !c
  | node _ eq _ _ => eq.eq_leaf_ok

end tree_element

open tree_element

/-- Invariant 1: every leaf reached from the root by following only `eq` edges has
`is_corner = false`. -/
def Invariant1 (t : tree_element) : Prop :=
  ∀ (p : List Branch) (c : Bool),
    (∀ b ∈ p, b = Branch.eq) → t.subtree p = some (leaf c) → c = false

/-- `random_tree(s, d, is_eq_branch)`, lines 345-357.  The argument `s` is unused by the
code.  The constructor arguments are drawn left to right: the `lt`, `eq` and `gt` subtrees,
then `rand() % num_offsets`.  `num_offsets` is the global of `offsets.h`. -/
def random_tree (D : Draws) (num_offsets : Nat) (s : ℚ) :
    Nat → Bool → Nat → tree_element × Nat
  | 0, is_eq_branch, pos =>
    if is_eq_branch then (leaf false, pos)
    else (leaf (D.rand pos % 2 != 0), pos + 1)
  | d + 1, _, pos =>
    let l := random_tree D num_offsets s d false pos
    let e := random_tree D num_offsets s d true l.2
    let g := random_tree D num_offsets s d false e.2
    (node l.1 e.1 g.1 (D.rand g.2 % num_offsets), g.2 + 1)

/-! ## Mutation (lines 459-549) -/

/-- The loop `while((c = rand()%3) == r);` of line 506: draw until the value differs from
`r`.  `fuel` bounds the number of draws; `none` means the bound was reached. -/
def draw_copy_source (D : Draws) (r : Nat) : Nat → Nat → Option (Nat × Nat)
  | 0, _ => none
  | fuel + 1, pos =>
    let c := D.rand pos % 3
    if c = r then draw_copy_source D r fuel (pos + 1) else some (c, pos + 1)

/-- The `double` constant `1./3.` of line 497, the double nearest to one third. -/
def one_third : ℚ := 6004799503160661 / 2 ^ 54

/-- The `double` constant `2./3.` of line 502, the double nearest to two thirds. -/
def two_thirds : ℚ := 6004799503160661 / 2 ^ 53

/-- The body of the permutation, lines 471-549, as the new content of the selected node.
A leaf is grown into `random_tree(offset_sigma, 1)` or flipped; an internal node has its test
re-randomized, one branch overwritten by a copy of another, or is splatted into a leaf. -/
def mutate_node (D : Draws) (num_offsets : Nat) (offset_sigma : ℚ) (fuel : Nat)
    (node : tree_element) (node_is_eq : Bool) (pos : Nat) : Option (tree_element × Nat) :=
  match node with
  | leaf is_corner =>
    if (D.rand pos % 2 != 0) || node_is_eq then
      some (random_tree D num_offsets offset_sigma 1 true (pos + 1))
    else
      some (leaf (!is_corner), pos + 1)
  | tree_element.node lt eq gt offset_index =>
    let d := D.rand_u pos
    if d < one_third then
      some (tree_element.node lt eq gt (D.rand (pos + 1) % num_offsets), pos + 2)
    else if d < two_thirds then
      let r := D.rand (pos + 1) % 3
      match draw_copy_source D r fuel (pos + 2) with
      | none => none
      | some (c, pos1) =>
        let tmp := if c = 0 then lt.copy else if c = 1 then eq.copy else gt.copy
        if r = 0 then some (tree_element.node tmp eq gt offset_index, pos1)
        else if r = 1 then some (tree_element.node lt tmp gt offset_index, pos1)
        else some (tree_element.node lt eq tmp offset_index, pos1)
    else
      if node_is_eq then some (leaf false, pos + 1)
      else some (leaf (D.rand (pos + 1) % 2 != 0), pos + 2)

/-- One tree permutation of `learn_detector`, lines 459-549, on the working copy
`new_tree`: the target index is `rand() % num_nodes()`, the target and its flag come from
`nth_element`, and the node is rewritten in place.  `none` stands for a null target or an
exhausted copy-source loop. -/
def mutation_step (D : Draws) (num_offsets : Nat) (offset_sigma : ℚ) (fuel : Nat)
    (new_tree : tree_element) (pos : Nat) : Option (tree_element × Nat) :=
  let nnum := D.rand pos % new_tree.num_nodes
  match new_tree.nth_element nnum with
  | none => none
  | some (ptr, node_is_eq) =>
    match new_tree.subtree ptr with
    | none => none
    | some target =>
      match mutate_node D num_offsets offset_sigma fuel target node_is_eq (pos + 1) with
      | none => none
      | some (n, pos1) => some (new_tree.replace ptr n, pos1)

/-- The draws of the failing run of the mutation system: a depth-1 tree whose `lt` leaf is
a corner, then a branch copy at the root from role 0 (`lt`) into role 1 (`eq`). -/
def copy_run_draws : Draws where
  rand := fun k => [1, 0, 0, 0, 0, 1, 0].getD k 0
  rand_u := fun k => if k = 4 then 1 / 2 else 0

/-! ## Images and the repeatability score (lines 173-251) -/

/-- The integer pixel coordinate `ImageRef` of libcvd. -/
structure ImageRef where
  x : Int
  y : Int
  deriving DecidableEq, Repr

instance : Add ImageRef := ⟨fun a b => ⟨a.x + b.x, a.y + b.y⟩⟩

/-- The squared length `mag_squared()` of a coordinate. -/
def ImageRef.mag_squared (p : ImageRef) : Int := p.x * p.x + p.y * p.y

/-- An `Image<T>` of libcvd: its size and its pixels.  Pixels are addressed by coordinate;
`in_image` tells which coordinates lie inside. -/
structure Image (α : Type) where
  size : ImageRef
  data : ImageRef → α

/-- The bounds test `in_image` of libcvd. -/
def Image.in_image {α : Type} (im : Image α) (p : ImageRef) : Bool :=
  decide (0 ≤ p.x) && decide (0 ≤ p.y) && decide (p.x < im.size.x) && decide (p.y < im.size.y)

/-- The pixel store `im[p] = v`. -/
def Image.set {α : Type} (im : Image α) (p : ImageRef) (v : α) : Image α :=
  { size := im.size, data := fun q => if q = p then v else im.data q }

/-- The values `lo, lo + 1, ..., hi` of a loop `for(v = lo; v <= hi; v++)`. -/
def int_range (lo hi : Int) : List Int :=
  (List.range (hi + 1 - lo).toNat).map (fun (k : Nat) => lo + (k : Int))

/-- `generate_disc(radius)`, lines 173-183: rows `y` from `-radius` to `radius`, in each row
`x` from `-radius` to `radius`, keeping the points with `mag_squared() <= radius`. -/
def generate_disc (radius : Int) : List ImageRef :=
  (int_range (-radius) radius).flatMap (fun y =>
    ((int_range (-radius) radius).map (fun x => (⟨x, y⟩ : ImageRef))).filter
      (fun p => decide (p.mag_squared ≤ radius)))

/-- `paint_circles(corners, circle, size)`, lines 195-206: start from an image of `false`
and store `true` at every `corners[i] + circle[j]` that lies in the image. -/
def paint_circles (corners circle : List ImageRef) (size : ImageRef) : Image Bool :=
  corners.foldl (fun im c =>
    circle.foldl (fun im d => if im.in_image (c + d) then im.set (c + d) true else im) im)
    { size := size, data := fun _ => false }

/-- A `Vector<2>` of doubles, as a pair of rationals `(x, y)`. -/
abbrev Vec2 := ℚ × ℚ

/-- The unmapped sentinel `(-1, -1)` written by `load_warps`. -/
def outside : Vec2 := (-1, -1)

/-- One coordinate of `ir_rounded`: the cast to `int` (truncation) of `v + 0.5` for
positive `v` and of `v - 0.5` otherwise. -/
def round_coordinate (v : ℚ) : Int :=
  if 0 < v then ⌊v + 1 / 2⌋ else ⌈v - 1 / 2⌉

/-- The rounding `ir_rounded` of libcvd: each coordinate to the nearest integer. -/
def ir_rounded (v : Vec2) : ImageRef := ⟨round_coordinate v.1, round_coordinate v.2⟩

/-- The constant `DBL_EPSILON`, two to the power -52. -/
def DBL_EPSILON : ℚ := 1 / 2 ^ 52

/-- The two counters of `compute_repeatability`. -/
structure Counters where
  corners_tested : Nat
  good_corners : Nat
  deriving DecidableEq, Repr

/-- The images `detected` of lines 222-226: one painted image per frame. -/
def detected_images (corners : List (List ImageRef)) (r : Int) (size : ImageRef) :
    List (Image Bool) :=
  corners.map (fun cs => paint_circles cs (generate_disc r) size)

/-- The body of the innermost loop, lines 239-246, for corner `c` of frame `i` against
frame `j`. -/
def test_corner (warps : Nat → Nat → Image Vec2) (detected : List (Image Bool))
    (i j : Nat) (acc : Counters) (c : ImageRef) : Counters :=
  let dest := ir_rounded ((warps i j).data c)
  if dest.x ≠ -1 then
    { corners_tested := acc.corners_tested + 1,
      good_corners :=
        if (detected.getD j { size := ⟨0, 0⟩, data := fun _ => false }).data dest
        then acc.good_corners + 1 else acc.good_corners }
  else acc

/-- The counting loops of `compute_repeatability`, lines 220-248.  `warps i j` is
`warps[i][j]`. -/
def count_repeats (warps : Nat → Nat → Image Vec2) (corners : List (List ImageRef))
    (r : Int) (size : ImageRef) : Counters :=
  let n := corners.length
  let detected := detected_images corners r size
  (List.range n).foldl (fun acc i =>
    (List.range n).foldl (fun acc j =>
      if i = j then acc
      else (corners.getD i []).foldl (test_corner warps detected i j) acc) acc)
    { corners_tested := 0, good_corners := 0 }

/-- `compute_repeatability`, lines 218-251: the quotient
`1.0 * good_corners / (DBL_EPSILON + corners_tested)`. -/
def compute_repeatability (warps : Nat → Nat → Image Vec2) (corners : List (List ImageRef))
    (r : Int) (size : ImageRef) : ℚ :=
  let k := count_repeats warps corners r size
  1 * (k.good_corners : ℚ) / (DBL_EPSILON + (k.corners_tested : ℚ))

/-- The triples `(i, j, corner)` visited by the loops of lines 231-248: frames `i ≠ j` and
the corners of frame `i`, in loop order. -/
def visited (corners : List (List ImageRef)) : List (Nat × Nat × ImageRef) :=
  (List.range corners.length).flatMap (fun i =>
    (List.range corners.length).flatMap (fun j =>
      if i = j then [] else (corners.getD i []).map (fun c => (i, j, c))))

/-- The rounded destination of a visited corner in frame `j`. -/
def dest_of (warps : Nat → Nat → Image Vec2) (t : Nat × Nat × ImageRef) : ImageRef :=
  ir_rounded ((warps t.1 t.2.1).data t.2.2)

/-- Whether the rounded destination of a visited corner is marked in the painted image of
frame `j`. -/
def occupied (warps : Nat → Nat → Image Vec2) (corners : List (List ImageRef)) (r : Int)
    (size : ImageRef) (t : Nat × Nat × ImageRef) : Bool :=
  ((detected_images corners r size).getD t.2.1
    { size := ⟨0, 0⟩, data := fun _ => false }).data (dest_of warps t)

/-- The identity warp between 4×4 frames: every pixel maps to itself. -/
def identity_warps : Nat → Nat → Image Vec2 :=
  fun _ _ => { size := ⟨4, 4⟩, data := fun p => ((p.x : ℚ), (p.y : ℚ)) }

/-! ## The annealing loop (lines 368-374 and 411-622) -/

/-- `compute_temperature(i, imax)`, lines 368-374: `scale * exp(-alpha * i / imax)`, with
`scale` and `alpha` the configuration values `Temperature.expo.scale` and
`Temperature.expo.alpha`. -/
noncomputable def compute_temperature (scale alpha : ℝ) (i imax : Int) : ℝ :=
  scale * Real.exp (-alpha * (i : ℝ) / (imax : ℝ))

/-- The Boltzmann likelihood of line 595, `exp((old_cost - cost) / temperature)`. -/
noncomputable def liklihood (old_cost cost temperature : ℝ) : ℝ :=
  Real.exp ((old_cost - cost) / temperature)

/-- The variables of `learn_detector` that live across iterations: the accepted `tree`,
the baseline `old_cost`, the flag `first_time` and the position in the stream of draws. -/
structure AnnealState where
  tree : tree_element
  old_cost : ℝ
  first_time : Bool
  pos : Nat

/-- Lines 441-551: the working copy `new_tree` of the accepted tree, permuted unless this
is the first iteration. -/
def propose (D : Draws) (num_offsets : Nat) (offset_sigma : ℚ) (fuel : Nat)
    (st : AnnealState) : Option (tree_element × Nat) :=
  if !st.first_time then mutation_step D num_offsets offset_sigma fuel st.tree.copy st.pos
  else some (st.tree.copy, st.pos)

/-- Lines 607-618: keep the change when `rand_u() < liklihood`, reject it otherwise. -/
noncomputable def accept_or_reject (st : AnnealState) (new_tree : tree_element)
    (cost liklihood u : ℝ) (pos : Nat) : AnnealState :=
  if u < liklihood then
    { tree := new_tree, old_cost := cost, first_time := false, pos := pos }
  else
    { tree := st.tree, old_cost := st.old_cost, first_time := false, pos := pos }

/-- One iteration `itnum` of the loop of `learn_detector`, lines 411-622.  `cost_of` is the
cost that lines 561-586 compute from the working copy, the images, the warps and the
configuration. -/
noncomputable def learn_detector_iteration (D : Draws) (num_offsets : Nat) (offset_sigma : ℚ)
    (fuel : Nat) (scale alpha : ℝ) (iterations : Nat) (cost_of : tree_element → ℝ)
    (itnum : Nat) (st : AnnealState) : Option AnnealState :=
  match propose D num_offsets offset_sigma fuel st with
  | none => none
  | some (new_tree, pos) =>
    let cost := cost_of new_tree
    let temperature := compute_temperature scale alpha (itnum : Int) (iterations : Int)
    some (accept_or_reject st new_tree cost (liklihood st.old_cost cost temperature)
      ((D.rand_u pos : ℚ) : ℝ) (pos + 1))

/-! ## Shape, ranges and operators of the tree -/

/-- A full ternary tree of depth `d`: internal nodes down to depth `d - 1`, leaves at depth
`d`. -/
def full_depth : tree_element → Nat → Bool
  | leaf _, 0 => true
  | leaf _, _ + 1 => false
  | node _ _ _ _, 0 => false
  | node lt eq gt _, d + 1 => full_depth lt d && full_depth eq d && full_depth gt d

/-- Every internal node has `offset_index < num_offsets`. -/
def offsets_in_range (num_offsets : Nat) : tree_element → Bool
  | leaf _ => true
  | node lt eq gt o =>
    decide (o < num_offsets) && offsets_in_range num_offsets lt
      && offsets_in_range num_offsets eq && offsets_in_range num_offsets gt

/-- Whether a node pointer follows `eq` edges only. -/
def eq_only (p : List Branch) : Bool := p.all (fun b => b == Branch.eq)

/-- The child of a node in role 0 (`lt`), 1 (`eq`) or 2 (`gt`), as the branch copy of lines
513-534 numbers them; a leaf has none. -/
def child : tree_element → Nat → Option tree_element
  | leaf _, _ => none
  | node lt _ _ _, 0 => some lt
  | node _ eq _ _, 1 => some eq
  | node _ _ gt _, _ => some gt

/-- The five tree operators of lines 471-549. -/
inductive Operator where
  | grow : Operator
  | flip : Operator
  | randomize : Operator
  | branch_copy : Operator
  | splat : Operator
  deriving DecidableEq, Repr

/-- The operator that lines 471-549 select for the node `target` with flag `node_is_eq`:
the tests `node->eq == NULL`, `rand() % 2 || node_is_eq`, `d < 1./3.` and `d < 2./3.`. -/
def chosen_operator (D : Draws) (target : tree_element) (node_is_eq : Bool) (pos : Nat) :
    Operator :=
  match target with
  | leaf _ => if (D.rand pos % 2 != 0) || node_is_eq then Operator.grow else Operator.flip
  | node _ _ _ _ =>
    if D.rand_u pos < one_third then Operator.randomize
    else if D.rand_u pos < two_thirds then Operator.branch_copy
    else Operator.splat

/-- The operator that one permutation of `new_tree` applies: the target is the node
`nth_element(rand() % num_nodes())`. -/
def step_operator (D : Draws) (new_tree : tree_element) (pos : Nat) : Option Operator :=
  match new_tree.nth_element (D.rand pos % new_tree.num_nodes) with
  | none => none
  | some (ptr, node_is_eq) =>
    match new_tree.subtree ptr with
    | none => none
    | some target => some (chosen_operator D target node_is_eq (pos + 1))

/-- The grow operator as the specification words it: a depth-1 random subtree seeded by
whether the leaf is itself eq-reachable. -/
def spec_grow (D : Draws) (num_offsets : Nat) (offset_sigma : ℚ) (node_is_eq : Bool)
    (pos : Nat) : tree_element × Nat :=
  random_tree D num_offsets offset_sigma 1 node_is_eq pos

/-! ## Bounds-checked reads -/

/-- Whether `p` lies inside a frame of size `size`: the test `in_image` of an image of that
size. -/
def in_frame (size p : ImageRef) : Bool :=
  decide (0 ≤ p.x) && decide (0 ≤ p.y) && decide (p.x < size.x) && decide (p.y < size.y)

/-- The read `im[p]`, which exists only for `p` inside the image. -/
def Image.read {α : Type} (im : Image α) (p : ImageRef) : Option α :=
  if im.in_image p then some (im.data p) else none

/-- The body of the innermost loop, lines 239-246, with its two image reads
`warps[i][j][corners[i][k]]` and `detected[j][dest]` bounds-checked: `none` records a read
outside an image (or a missing `detected[j]`). -/
def test_corner_checked (warps : Nat → Nat → Image Vec2) (detected : List (Image Bool))
    (i j : Nat) (acc : Option Counters) (c : ImageRef) : Option Counters :=
  match acc with
  | none => none
  | some acc =>
    match (warps i j).read c with
    | none => none
    | some w =>
      let dest := ir_rounded w
      if dest.x ≠ -1 then
        match detected.get? j with
        | none => none
        | some im =>
          match im.read dest with
          | none => none
          | some b =>
            some { corners_tested := acc.corners_tested + 1,
                   good_corners := if b then acc.good_corners + 1 else acc.good_corners }
      else some acc

/-- The counting loops of `compute_repeatability`, lines 220-248, with every image read
bounds-checked. -/
def count_repeats_checked (warps : Nat → Nat → Image Vec2) (corners : List (List ImageRef))
    (r : Int) (size : ImageRef) : Option Counters :=
  let n := corners.length
  let detected := detected_images corners r size
  (List.range n).foldl (fun acc i =>
    (List.range n).foldl (fun acc j =>
      if i = j then acc
      else (corners.getD i []).foldl (test_corner_checked warps detected i j) acc) acc)
    (some { corners_tested := 0, good_corners := 0 })

/-- The pruning of `load_warps`, lines 300-302 with `prune` set: an entry that rounds to a
position outside the image is replaced by the sentinel. -/
def prune_entry (size : ImageRef) (v : Vec2) : Vec2 :=
  if in_frame size (ir_rounded v) then v else outside

/-- The tables returned by `load_warps` with `prune` set, lines 270-317, from the entries
`raw i j` read from the warp files: for distinct frames an image of size `size` with every
entry pruned, and for `i = j` the empty image the vector was created with. -/
def load_warps (raw : Nat → Nat → ImageRef → Vec2) (size : ImageRef) :
    Nat → Nat → Image Vec2 :=
  fun i j =>
    if i = j then { size := ⟨0, 0⟩, data := fun _ => outside }
    else { size := size, data := fun p => prune_entry size (raw i j p) }

/-! ## The loop from its initial variables (lines 398-409 and 411-622) -/

/-- A `double` of the cost computation without rounding: a real number, an infinity, or
NaN. -/
inductive Dbl where
  | fin (x : ℝ) : Dbl
  | pinf : Dbl
  | ninf : Dbl
  | nan : Dbl

/-- The constant `HUGE_VAL`, positive infinity, the initial `old_cost` of line 399. -/
def HUGE_VAL : Dbl := Dbl.pinf

/-- The difference `old_cost - cost` of line 595: infinities absorb finite values, and the
difference of two equal infinities is NaN. -/
noncomputable def Dbl.sub : Dbl → Dbl → Dbl
  | Dbl.fin a, Dbl.fin b => Dbl.fin (a - b)
  | Dbl.fin _, Dbl.pinf => Dbl.ninf
  | Dbl.fin _, Dbl.ninf => Dbl.pinf
  | Dbl.pinf, Dbl.fin _ => Dbl.pinf
  | Dbl.pinf, Dbl.ninf => Dbl.pinf
  | Dbl.pinf, Dbl.pinf => Dbl.nan
  | Dbl.ninf, Dbl.fin _ => Dbl.ninf
  | Dbl.ninf, Dbl.pinf => Dbl.ninf
  | Dbl.ninf, Dbl.ninf => Dbl.nan
  | Dbl.nan, _ => Dbl.nan
  | _, Dbl.nan => Dbl.nan

/-- The quotient by the temperature of line 595.  The temperature is a real number; an
infinity keeps or changes its sign with the sign of the temperature, and a zero temperature
is taken as a positive zero. -/
noncomputable def Dbl.div_real : Dbl → ℝ → Dbl
  | Dbl.fin a, t =>
    if t = 0 then (if 0 < a then Dbl.pinf else if a < 0 then Dbl.ninf else Dbl.nan)
    else Dbl.fin (a / t)
  | Dbl.pinf, t => if t < 0 then Dbl.ninf else Dbl.pinf
  | Dbl.ninf, t => if t < 0 then Dbl.pinf else Dbl.ninf
  | Dbl.nan, _ => Dbl.nan

/-- The function `exp` of line 595: `exp(+inf) = +inf`, `exp(-inf) = 0`, `exp(NaN) = NaN`. -/
noncomputable def Dbl.exp : Dbl → Dbl
  | Dbl.fin a => Dbl.fin (Real.exp a)
  | Dbl.pinf => Dbl.pinf
  | Dbl.ninf => Dbl.fin 0
  | Dbl.nan => Dbl.nan

/-- The comparison `rand_u() < liklihood` of line 607 for a real draw: every comparison
with NaN is false. -/
noncomputable def Dbl.real_lt (u : ℝ) : Dbl → Bool
  | Dbl.fin a => decide (u < a)
  | Dbl.pinf => true
  | Dbl.ninf => false
  | Dbl.nan => false

/-- The likelihood of line 595 on costs that may be infinite. -/
noncomputable def liklihood_dbl (old_cost cost : Dbl) (temperature : ℝ) : Dbl :=
  Dbl.exp (Dbl.div_real (Dbl.sub old_cost cost) temperature)

/-- The variables of `learn_detector` across iterations, `old_cost` being any `double`. -/
structure LoopVars where
  tree : tree_element
  old_cost : Dbl
  first_time : Bool
  pos : Nat

/-- Lines 441-551: the working copy `new_tree` of the accepted tree, permuted unless
`first_time` is set. -/
def working_copy (D : Draws) (num_offsets : Nat) (offset_sigma : ℚ) (fuel : Nat)
    (first_time : Bool) (tree : tree_element) (pos : Nat) : Option (tree_element × Nat) :=
  if !first_time then mutation_step D num_offsets offset_sigma fuel tree.copy pos
  else some (tree.copy, pos)

/-- The body of the loop of `learn_detector` for iteration `itnum`, lines 411-622, on
costs that may be infinite.  `cost_of` is the cost that lines 561-586 compute from the
working copy. -/
noncomputable def learn_detector_body (D : Draws) (num_offsets : Nat) (offset_sigma : ℚ)
    (fuel : Nat) (scale alpha : ℝ) (iterations : Nat) (cost_of : tree_element → Dbl)
    (itnum : Nat) (v : LoopVars) : Option LoopVars :=
  match working_copy D num_offsets offset_sigma fuel v.first_time v.tree v.pos with
  | none => none
  | some (new_tree, pos) =>
    let cost := cost_of new_tree
    let temperature := compute_temperature scale alpha (itnum : Int) (iterations : Int)
    if Dbl.real_lt ((D.rand_u pos : ℚ) : ℝ) (liklihood_dbl v.old_cost cost temperature) then
      some { tree := new_tree, old_cost := cost, first_time := false, pos := pos + 1 }
    else
      some { tree := v.tree, old_cost := v.old_cost, first_time := false, pos := pos + 1 }

/-- The variables of `learn_detector` when the loop is entered, lines 398-409:
`first_time = 1`, `old_cost = HUGE_VAL` and the initial random tree of depth
`initial_tree_depth`. -/
def learn_detector_start (D : Draws) (num_offsets : Nat) (offset_sigma : ℚ)
    (initial_tree_depth : Nat) (pos : Nat) : LoopVars :=
  { tree := (random_tree D num_offsets offset_sigma initial_tree_depth true pos).1,
    old_cost := HUGE_VAL,
    first_time := true,
    pos := (random_tree D num_offsets offset_sigma initial_tree_depth true pos).2 }

/-- The variables with a finite `old_cost`, as variables with any `double`. -/
def AnnealState.toLoopVars (st : AnnealState) : LoopVars :=
  { tree := st.tree, old_cost := Dbl.fin st.old_cost, first_time := st.first_time,
    pos := st.pos }

/-! ## Rounding to `double` and `float` -/

/-- Rounding of a number to an integer, to the nearest one and on a tie to the even one: the
rounding of the significand in the default IEEE 754 mode.  The number is taken in any
ordered field with a floor, so that the definition runs on rationals and applies to reals. -/
def round_even {K : Type} [LinearOrderedField K] [FloorRing K] (y : K) : ℤ :=
  if Int.fract y < 1 / 2 then ⌊y⌋
  else if 1 / 2 < Int.fract y then ⌊y⌋ + 1
  else if Even ⌊y⌋ then ⌊y⌋ else ⌊y⌋ + 1

/-- The exponent that fixes the spacing of the floating-point numbers around `x`: the
integer `e` with `2 ^ e <= |x| < 2 ^ (e + 1)`, and `emin` for the subnormal range and for
zero. -/
def binade {K : Type} [LinearOrderedField K] [FloorRing K] (emin : ℤ) (x : K) : ℤ :=
  if x = 0 then emin else max (Int.log 2 |x|) emin

/-- Rounding of a number to the nearest floating-point number with `frac` fraction bits and
least normal exponent `emin`, ties to even, with gradual underflow and an unbounded exponent
above. -/
def round_to {K : Type} [LinearOrderedField K] [FloorRing K] (frac : ℕ) (emin : ℤ)
    (x : K) : K :=
  (round_even (x / (2 : K) ^ (binade emin x - (frac : ℤ))) : K) *
    (2 : K) ^ (binade emin x - (frac : ℤ))

/-- Rounding to `double`: 52 fraction bits, least normal exponent -1022. -/
def round_double {K : Type} [LinearOrderedField K] [FloorRing K] (x : K) : K :=
  round_to 52 (-1022) x

/-- Rounding to `float`: 23 fraction bits, least normal exponent -126. -/
def round_float {K : Type} [LinearOrderedField K] [FloorRing K] (x : K) : K :=
  round_to 23 (-126) x

/-- `compute_repeatability`, lines 218-251, in the arithmetic of line 250: the counters are
converted to `double`, the product `1.0 * good_corners`, the sum
`DBL_EPSILON + corners_tested` and the quotient are rounded to `double`, and the returned
value is rounded to `float`. -/
def compute_repeatability_float (warps : Nat → Nat → Image Vec2)
    (corners : List (List ImageRef)) (r : Int) (size : ImageRef) : ℚ :=
  let k := count_repeats warps corners r size
  round_float (round_double (round_double (1 * (k.good_corners : ℚ)) /
    round_double (DBL_EPSILON + (k.corners_tested : ℚ))))

/-- The largest value of an `int`. -/
def INT_MAX : Nat := 2147483647

/-- The largest finite `double`. -/
noncomputable def DBL_MAX : ℝ := (2 ^ 53 - 1) * 2 ^ 971

/-- The result of a `double` operation whose exact value is given: a finite value is
rounded to `double` and becomes an infinity when the rounded value exceeds `DBL_MAX`;
infinities and NaN are kept. -/
noncomputable def Dbl.rounded : Dbl → Dbl
  | Dbl.fin x =>
    if DBL_MAX < round_double x then Dbl.pinf
    else if round_double x < -DBL_MAX then Dbl.ninf
    else Dbl.fin (round_double x)
  | Dbl.pinf => Dbl.pinf
  | Dbl.ninf => Dbl.ninf
  | Dbl.nan => Dbl.nan

/-- The quotient of line 595 by a temperature that is any `double`: a finite value divided
by an infinity is zero, and the quotient of two infinities is NaN. -/
noncomputable def Dbl.div : Dbl → Dbl → Dbl
  | x, Dbl.fin t => Dbl.div_real x t
  | Dbl.fin _, Dbl.pinf => Dbl.fin 0
  | Dbl.fin _, Dbl.ninf => Dbl.fin 0
  | _, _ => Dbl.nan

/-- The product `scale * exp(..)` of line 373 for a finite `scale`: an infinity keeps or
changes its sign with the sign of the scale, and zero times an infinity is NaN. -/
noncomputable def Dbl.real_mul (s : ℝ) : Dbl → Dbl
  | Dbl.fin a => Dbl.fin (s * a)
  | Dbl.pinf => if 0 < s then Dbl.pinf else if s < 0 then Dbl.ninf else Dbl.nan
  | Dbl.ninf => if 0 < s then Dbl.ninf else if s < 0 then Dbl.pinf else Dbl.nan
  | Dbl.nan => Dbl.nan

/-- The likelihood of line 595 in `double` arithmetic: the difference, the quotient and the
exponential are each rounded.  The `exp` of the C library is taken to return the `double`
nearest to the exact exponential. -/
noncomputable def liklihood_double (old_cost cost temperature : Dbl) : Dbl :=
  (Dbl.exp (Dbl.div (Dbl.sub old_cost cost).rounded temperature).rounded).rounded

/-- `compute_temperature(i, imax)`, lines 368-374, in `double` arithmetic:
`scale * exp(-alpha * i / imax)` with the product `-alpha * i`, the quotient, the exponential
and the final product each rounded, and each becoming an infinity on overflow.  The
configuration values `scale` and `alpha` are finite. -/
noncomputable def compute_temperature_double (scale alpha : ℝ) (i imax : Int) : Dbl :=
  (Dbl.real_mul scale
    (Dbl.exp
      (Dbl.div_real (Dbl.fin (-alpha * (i : ℝ))).rounded (imax : ℝ)).rounded).rounded).rounded

/-- The comparison `a < b` of two `double` values: false as soon as one is NaN. -/
def Dbl.lt : Dbl → Dbl → Prop
  | Dbl.fin a, Dbl.fin b => a < b
  | Dbl.fin _, Dbl.pinf => True
  | Dbl.ninf, Dbl.fin _ => True
  | Dbl.ninf, Dbl.pinf => True
  | _, _ => False

/-- The comparison `a <= b` of two `double` values: false as soon as one is NaN. -/
def Dbl.le : Dbl → Dbl → Prop
  | Dbl.fin a, Dbl.fin b => a ≤ b
  | Dbl.fin _, Dbl.pinf => True
  | Dbl.ninf, Dbl.fin _ => True
  | Dbl.ninf, Dbl.ninf => True
  | Dbl.ninf, Dbl.pinf => True
  | Dbl.pinf, Dbl.pinf => True
  | _, _ => False

/-- The comparison `u <= l` of a real number with a `double`. -/
def Dbl.real_le (u : ℝ) : Dbl → Prop
  | Dbl.fin a => u ≤ a
  | Dbl.pinf => True
  | Dbl.ninf => False
  | Dbl.nan => False

/-- The body of the loop of `learn_detector` for iteration `itnum`, lines 411-622, in
`double` arithmetic: the temperature of line 588 and the likelihood of line 595 are computed
with rounding.  `cost_of` is the cost that lines 561-586 compute from the working copy. -/
noncomputable def learn_detector_body_double (D : Draws) (num_offsets : Nat)
    (offset_sigma : ℚ) (fuel : Nat) (scale alpha : ℝ) (iterations : Nat)
    (cost_of : tree_element → Dbl) (itnum : Nat) (v : LoopVars) : Option LoopVars :=
  match working_copy D num_offsets offset_sigma fuel v.first_time v.tree v.pos with
  | none => none
  | some (new_tree, pos) =>
    let cost := cost_of new_tree
    let temperature := compute_temperature_double scale alpha (itnum : Int) (iterations : Int)
    if Dbl.real_lt ((D.rand_u pos : ℚ) : ℝ) (liklihood_double v.old_cost cost temperature) then
      some { tree := new_tree, old_cost := cost, first_time := false, pos := pos + 1 }
    else
      some { tree := v.tree, old_cost := v.old_cost, first_time := false, pos := pos + 1 }

/-- The draws of a run whose acceptance draw is `rand_u() = 1`: the branch copy of
`copy_run_draws`, then the largest value of `rand_u()`. -/
def unit_draw_run : Draws where
  rand := fun k => [1, 0, 0, 0, 0, 1, 0].getD k 0
  rand_u := fun k => if k = 4 then 1 / 2 else 1

/-! ## Helper lemmas -/

theorem subtree_leaf_cons (c : Bool) (b : Branch) (p : List Branch) :
    (leaf c).subtree (b :: p) = none := by
  cases b <;> rfl

theorem invariant1_iff_eq_leaf_ok (t : tree_element) :
    Invariant1 t ↔ t.eq_leaf_ok = true := by
  induction t with
  | leaf c =>
    constructor
    · intro h
      have := h [] c (by simp) rfl
      simp [eq_leaf_ok, this]
    · intro h p c2 hp hs
      cases p with
      | nil =>
        simp only [subtree, Option.some.injEq, leaf.injEq] at hs
        subst hs
        simpa [eq_leaf_ok] using h
      | cons b p => simp [subtree_leaf_cons] at hs
  | node lt eq gt o _ ihe _ =>
    simp only [eq_leaf_ok]
    rw [← ihe]
    constructor
    · intro h p c hp hs
      exact h (Branch.eq :: p) c (by simpa using hp) (by simpa [subtree] using hs)
    · intro h p c hp hs
      cases p with
      | nil => simp [subtree] at hs
      | cons b p =>
        have hb : b = Branch.eq := hp b (by simp)
        subst hb
        exact h p c (fun b hb => hp b (by simp [hb])) (by simpa [subtree] using hs)

theorem random_tree_eq_leaf_ok (D : Draws) (num_offsets : Nat) (s : ℚ) (d pos : Nat) :
    (random_tree D num_offsets s d true pos).1.eq_leaf_ok = true := by
  induction d generalizing pos with
  | zero => simp [random_tree, eq_leaf_ok]
  | succ d ih => simp only [random_tree, eq_leaf_ok]; exact ih _

theorem foldl_flatMap_eq {α β γ : Type} (f : α → List β) (g : γ → β → γ) (l : List α)
    (a : γ) :
    (l.flatMap f).foldl g a = l.foldl (fun acc x => (f x).foldl g acc) a := by
  induction l generalizing a with
  | nil => rfl
  | cons x xs ih => simp [List.flatMap_cons, List.foldl_append, ih]

/-- The step of the counting loops on one visited triple. -/
theorem test_corner_eq (warps : Nat → Nat → Image Vec2) (corners : List (List ImageRef))
    (r : Int) (size : ImageRef) (acc : Counters) (t : Nat × Nat × ImageRef) :
    test_corner warps (detected_images corners r size) t.1 t.2.1 acc t.2.2 =
      { corners_tested := acc.corners_tested + (if (dest_of warps t).x ≠ -1 then 1 else 0),
        good_corners := acc.good_corners +
          (if (dest_of warps t).x ≠ -1 ∧ occupied warps corners r size t = true then 1 else 0) } := by
  unfold test_corner occupied dest_of
  by_cases h : (ir_rounded ((warps t.1 t.2.1).data t.2.2)).x = -1
  · simp [h]
  · simp only [h, ne_eq, not_false_eq_true, if_true, true_and]
    split_ifs <;> rfl

theorem foldl_test_corner (warps : Nat → Nat → Image Vec2) (corners : List (List ImageRef))
    (r : Int) (size : ImageRef) (l : List (Nat × Nat × ImageRef)) (acc : Counters) :
    l.foldl (fun a t => test_corner warps (detected_images corners r size) t.1 t.2.1 a t.2.2) acc
      = { corners_tested := acc.corners_tested +
            l.countP (fun t => decide ((dest_of warps t).x ≠ -1)),
          good_corners := acc.good_corners +
            l.countP (fun t => decide ((dest_of warps t).x ≠ -1) &&
              occupied warps corners r size t) } := by
  induction l generalizing acc with
  | nil => simp
  | cons t ts ih =>
    rw [List.foldl_cons, ih, test_corner_eq]
    by_cases h : (dest_of warps t).x = -1
    · simp [h, List.countP_cons]
    · by_cases h2 : occupied warps corners r size t = true
      · simp [h, h2, List.countP_cons]; constructor <;> ring
      · simp [h, h2, List.countP_cons]; ring

/-- The counting loops compute two counts over the visited triples. -/
theorem count_repeats_eq (warps : Nat → Nat → Image Vec2) (corners : List (List ImageRef))
    (r : Int) (size : ImageRef) :
    count_repeats warps corners r size =
      { corners_tested := (visited corners).countP (fun t => decide ((dest_of warps t).x ≠ -1)),
        good_corners := (visited corners).countP (fun t =>
          decide ((dest_of warps t).x ≠ -1) && occupied warps corners r size t) } := by
  have key : ∀ (acc : Counters),
      (List.range corners.length).foldl (fun acc i =>
        (List.range corners.length).foldl (fun acc j =>
          if i = j then acc
          else (corners.getD i []).foldl
            (test_corner warps (detected_images corners r size) i j) acc) acc) acc
      = (visited corners).foldl
          (fun a t => test_corner warps (detected_images corners r size) t.1 t.2.1 a t.2.2)
          acc := by
    intro acc
    unfold visited
    rw [foldl_flatMap_eq]
    congr 1
    funext acc i
    rw [foldl_flatMap_eq]
    congr 1
    funext acc j
    by_cases hij : i = j
    · simp [hij]
    · simp [hij, List.foldl_map]
  unfold count_repeats
  simp only []
  rw [key, foldl_test_corner]
  simp

theorem mem_visited {corners : List (List ImageRef)} {t : Nat × Nat × ImageRef}
    (h : t ∈ visited corners) :
    t.1 < corners.length ∧ t.2.1 < corners.length ∧ t.1 ≠ t.2.1 ∧
      t.2.2 ∈ corners.getD t.1 [] := by
  unfold visited at h
  rw [List.mem_flatMap] at h
  obtain ⟨i, hi, h⟩ := h
  rw [List.mem_flatMap] at h
  obtain ⟨j, hj, h⟩ := h
  by_cases hij : i = j
  · simp [hij] at h
  · simp only [hij, if_false, List.mem_map] at h
    obtain ⟨c, hc, rfl⟩ := h
    exact ⟨List.mem_range.mp hi, List.mem_range.mp hj, hij, hc⟩

theorem getD_nil_of_all_nil {corners : List (List ImageRef)} (h : ∀ cs ∈ corners, cs = [])
    (i : Nat) : corners.getD i [] = [] := by
  by_cases hi : i < corners.length
  · rw [List.getD_eq_getElem _ _ hi]
    exact h _ (List.getElem_mem hi)
  · exact List.getD_eq_default _ _ (Nat.le_of_not_lt hi)

theorem round_coordinate_neg_one : round_coordinate (-1) = -1 := by
  unfold round_coordinate
  norm_num [Int.ceil_eq_iff]

theorem round_coordinate_intCast (n : Int) : round_coordinate (n : ℚ) = n := by
  unfold round_coordinate
  split_ifs with h
  · rw [Int.floor_eq_iff]
    constructor <;> norm_num
  · rw [Int.ceil_eq_iff]
    constructor <;> norm_num

theorem ir_rounded_outside : ir_rounded outside = ⟨-1, -1⟩ := by
  simp [ir_rounded, outside, round_coordinate_neg_one]

theorem DBL_EPSILON_pos : 0 < DBL_EPSILON := by
  unfold DBL_EPSILON
  positivity

theorem foldl_preserves {α β : Type} (P : β → Prop) (f : β → α → β)
    (hf : ∀ b a, P b → P (f b a)) (l : List α) (b : β) (hb : P b) : P (l.foldl f b) := by
  induction l generalizing b with
  | nil => exact hb
  | cons a as ih => exact ih _ (hf b a hb)

/-- A painted image has the requested size and is marked only inside the image. -/
theorem paint_circles_marks_inside (corners circle : List ImageRef) (size : ImageRef) :
    (paint_circles corners circle size).size = size ∧
      ∀ p, (paint_circles corners circle size).data p = true →
        (paint_circles corners circle size).in_image p = true := by
  unfold paint_circles
  refine foldl_preserves
    (fun im : Image Bool => im.size = size ∧ ∀ p, im.data p = true → im.in_image p = true)
    _ ?_ corners _ ⟨rfl, by simp⟩
  intro im c him
  refine foldl_preserves
    (fun im : Image Bool => im.size = size ∧ ∀ p, im.data p = true → im.in_image p = true)
    _ ?_ circle im him
  intro im d ⟨hs, hd⟩
  by_cases hin : im.in_image (c + d) = true
  · simp only [hin, if_true]
    refine ⟨by simpa [Image.set] using hs, ?_⟩
    intro p hp
    by_cases hpe : p = c + d
    · subst hpe
      simpa [Image.set, Image.in_image] using hin
    · have : im.data p = true := by simpa [Image.set, hpe] using hp
      simpa [Image.set, Image.in_image] using hd p this
  · simp only [hin]
    exact ⟨hs, hd⟩

theorem getD_map_data_true {f : List ImageRef → Image Bool} (l : List (List ImageRef))
    (j : Nat) (p : ImageRef)
    (h : ((l.map f).getD j { size := ⟨0, 0⟩, data := fun _ => false }).data p = true) :
    ∃ cs, (f cs).data p = true := by
  by_cases hj : j < (l.map f).length
  · rw [List.getD_eq_getElem _ _ hj, List.getElem_map] at h
    exact ⟨_, h⟩
  · rw [List.getD_eq_default _ _ (Nat.le_of_not_lt hj)] at h
    simp at h

/-- A marked destination lies inside the frame, so its `x` is not `-1`. -/
theorem occupied_x_ne (warps : Nat → Nat → Image Vec2) (corners : List (List ImageRef))
    (r : Int) (size : ImageRef) (t : Nat × Nat × ImageRef)
    (h : occupied warps corners r size t = true) : (dest_of warps t).x ≠ -1 := by
  unfold occupied detected_images at h
  obtain ⟨cs, hcs⟩ := getD_map_data_true corners t.2.1 (dest_of warps t) h
  have hin := (paint_circles_marks_inside cs (generate_disc r) size).2 _ hcs
  simp only [Image.in_image, Bool.and_eq_true, decide_eq_true_eq] at hin
  omega

theorem repeatability_den_pos (warps : Nat → Nat → Image Vec2)
    (corners : List (List ImageRef)) (r : Int) (size : ImageRef) :
    0 < DBL_EPSILON + ((count_repeats warps corners r size).corners_tested : ℚ) :=
  add_pos_of_pos_of_nonneg DBL_EPSILON_pos (Nat.cast_nonneg _)

theorem good_le_tested (warps : Nat → Nat → Image Vec2) (corners : List (List ImageRef))
    (r : Int) (size : ImageRef) :
    (count_repeats warps corners r size).good_corners ≤
      (count_repeats warps corners r size).corners_tested := by
  rw [count_repeats_eq]
  apply List.countP_mono_left
  intro t _ ht
  simp only [Bool.and_eq_true] at ht
  exact ht.1

theorem mem_int_range (lo hi x : Int) : x ∈ int_range lo hi ↔ lo ≤ x ∧ x ≤ hi := by
  unfold int_range
  simp only [List.mem_map, List.mem_range]
  constructor
  · rintro ⟨k, hk, rfl⟩
    omega
  · intro h
    exact ⟨(x - lo).toNat, by omega, by omega⟩

theorem nodup_int_range (lo hi : Int) : (int_range lo hi).Nodup := by
  unfold int_range
  apply List.Nodup.map _ (List.nodup_range _)
  intro a b h
  simp only at h
  omega

/-- The offsets returned by `generate_disc`: those inside the scanned square whose squared
length is at most `radius`. -/
theorem mem_generate_disc (radius : Int) (p : ImageRef) :
    p ∈ generate_disc radius ↔ p.x * p.x + p.y * p.y ≤ radius := by
  unfold generate_disc
  simp only [List.mem_flatMap, List.mem_filter, List.mem_map, mem_int_range,
    decide_eq_true_eq, ImageRef.mag_squared]
  constructor
  · rintro ⟨y, _, ⟨x, _, rfl⟩, h⟩
    exact h
  · intro h
    have hx : -radius ≤ p.x ∧ p.x ≤ radius := by
      constructor <;> nlinarith [mul_self_nonneg p.y, mul_self_nonneg (p.x - 1),
        mul_self_nonneg (p.x + 1)]
    have hy : -radius ≤ p.y ∧ p.y ≤ radius := by
      constructor <;> nlinarith [mul_self_nonneg p.x, mul_self_nonneg (p.y - 1),
        mul_self_nonneg (p.y + 1)]
    exact ⟨p.y, hy, ⟨p.x, hx, rfl⟩, h⟩

theorem nodup_generate_disc (radius : Int) : (generate_disc radius).Nodup := by
  unfold generate_disc
  rw [List.nodup_flatMap]
  constructor
  · intro y _
    apply List.Nodup.filter
    apply List.Nodup.map _ (nodup_int_range _ _)
    intro a b h
    simpa using h
  · apply (nodup_int_range _ _).pairwise_of_forall_ne
    intro a _ b _ hab
    simp only [Function.onFun]
    intro q hqa hqb
    simp only [List.mem_filter, List.mem_map] at hqa hqb
    obtain ⟨⟨x1, _, rfl⟩, _⟩ := hqa
    obtain ⟨⟨x2, _, h2⟩, _⟩ := hqb
    have := congrArg ImageRef.y h2
    simp only at this
    exact hab this.symm

theorem copy_eq (t : tree_element) : t.copy = t := by
  induction t with
  | leaf c => rfl
  | node lt eq gt o ihl ihe ihg => simp [copy, ihl, ihe, ihg]

theorem random_tree_full_depth (D : Draws) (num_offsets : Nat) (s : ℚ) (d : Nat) (f : Bool)
    (pos : Nat) : full_depth (random_tree D num_offsets s d f pos).1 d = true := by
  induction d generalizing f pos with
  | zero =>
    unfold random_tree
    split_ifs <;> rfl
  | succ d ih => simp [random_tree, full_depth, ih]

theorem full_depth_leaf_depth (t : tree_element) (d : Nat) (h : full_depth t d = true)
    (p : List Branch) (c : Bool) (hs : t.subtree p = some (leaf c)) : p.length = d := by
  induction t generalizing d p with
  | leaf c0 =>
    cases d with
    | zero =>
      cases p with
      | nil => rfl
      | cons b p => simp [subtree_leaf_cons] at hs
    | succ d => simp [full_depth] at h
  | node lt eq gt o ihl ihe ihg =>
    cases d with
    | zero => simp [full_depth] at h
    | succ d =>
      simp only [full_depth, Bool.and_eq_true] at h
      cases p with
      | nil => simp [subtree] at hs
      | cons b p =>
        cases b with
        | lt => simpa using ihl d h.1.1 p (by simpa [subtree] using hs)
        | eq => simpa using ihe d h.1.2 p (by simpa [subtree] using hs)
        | gt => simpa using ihg d h.2 p (by simpa [subtree] using hs)

theorem full_depth_num_nodes (t : tree_element) (d : Nat) (h : full_depth t d = true) :
    2 * t.num_nodes + 1 = 3 ^ (d + 1) := by
  induction t generalizing d with
  | leaf c0 =>
    cases d with
    | zero => simp [num_nodes]
    | succ d => simp [full_depth] at h
  | node lt eq gt o ihl ihe ihg =>
    cases d with
    | zero => simp [full_depth] at h
    | succ d =>
      simp only [full_depth, Bool.and_eq_true] at h
      have h1 := ihl d h.1.1
      have h2 := ihe d h.1.2
      have h3 := ihg d h.2
      simp only [num_nodes]
      rw [pow_succ]
      omega

theorem subtree_append (t : tree_element) (p q : List Branch) (n : tree_element)
    (hs : t.subtree p = some n) : t.subtree (p ++ q) = n.subtree q := by
  induction p generalizing t with
  | nil =>
    simp only [subtree, Option.some.injEq] at hs
    simp [hs]
  | cons b p ih =>
    cases t with
    | leaf c => simp [subtree_leaf_cons] at hs
    | node lt eq gt o =>
      cases b with
      | lt => simpa [subtree] using ih lt (by simpa [subtree] using hs)
      | eq => simpa [subtree] using ih eq (by simpa [subtree] using hs)
      | gt => simpa [subtree] using ih gt (by simpa [subtree] using hs)

theorem random_tree_succ_flag (D : Draws) (num_offsets : Nat) (s : ℚ) (d : Nat)
    (f g : Bool) (pos : Nat) :
    random_tree D num_offsets s (d + 1) f pos = random_tree D num_offsets s (d + 1) g pos := by
  simp [random_tree]

theorem random_tree_one (D : Draws) (num_offsets : Nat) (s : ℚ) (f : Bool) (pos : Nat) :
    random_tree D num_offsets s 1 f pos =
      (node (leaf (D.rand pos % 2 != 0)) (leaf false) (leaf (D.rand (pos + 1) % 2 != 0))
        (D.rand (pos + 2) % num_offsets), pos + 3) := by
  simp [random_tree]

theorem draw_copy_source_spec (D : Draws) (r fuel pos c pos1 : Nat)
    (h : draw_copy_source D r fuel pos = some (c, pos1)) : c < 3 ∧ c ≠ r := by
  induction fuel generalizing pos with
  | zero => simp [draw_copy_source] at h
  | succ fuel ih =>
    simp only [draw_copy_source] at h
    split_ifs at h with hc
    · exact ih _ h
    · simp only [Option.some.injEq, Prod.mk.injEq] at h
      obtain ⟨rfl, _⟩ := h
      exact ⟨Nat.mod_lt _ (by decide), hc⟩

theorem draw_copy_source_some (D : Draws) (r fuel pos k : Nat) (hk : k < fuel)
    (hne : D.rand (pos + k) % 3 ≠ r) :
    ∃ c pos1, draw_copy_source D r fuel pos = some (c, pos1) := by
  induction fuel generalizing pos k with
  | zero => omega
  | succ fuel ih =>
    simp only [draw_copy_source]
    split_ifs with hc
    · cases k with
      | zero => exact absurd hc hne
      | succ k =>
        apply ih (pos + 1) k (by omega)
        have : pos + 1 + k = pos + (k + 1) := by omega
        rw [this]
        exact hne
    · exact ⟨_, _, rfl⟩

theorem elements_length (t : tree_element) (f : Bool) :
    (t.elements f).length = t.num_nodes := by
  induction t generalizing f with
  | leaf c => rfl
  | node lt eq gt o ihl ihe ihg =>
    simp only [elements, num_nodes, List.length_cons, List.length_append, List.length_map,
      ihl, ihe, ihg]
    omega

theorem num_nodes_pos (t : tree_element) : 1 ≤ t.num_nodes := by
  cases t with
  | leaf c => simp [num_nodes]
  | node lt eq gt o => simp only [num_nodes]; omega

/-- Every entry of the traversal points at a node of the tree, and its flag tells whether
the pointer follows `eq` edges only (below a root whose own flag is `f`). -/
theorem mem_elements (t : tree_element) (f : Bool) (p : List Branch) (g : Bool)
    (h : (p, g) ∈ t.elements f) :
    (∃ n, t.subtree p = some n) ∧ g = (f && eq_only p) := by
  induction t generalizing f p g with
  | leaf c =>
    simp only [elements, List.mem_singleton, Prod.mk.injEq] at h
    obtain ⟨rfl, rfl⟩ := h
    exact ⟨⟨_, rfl⟩, by simp [eq_only]⟩
  | node lt eq gt o ihl ihe ihg =>
    simp only [elements, List.mem_cons, List.mem_append, List.mem_map, Prod.mk.injEq,
      Prod.exists] at h
    rcases h with ⟨rfl, rfl⟩ | ⟨q, g1, hq, rfl, rfl⟩ | ⟨q, g1, hq, rfl, rfl⟩ |
      ⟨q, g1, hq, rfl, rfl⟩
    · exact ⟨⟨_, rfl⟩, by simp [eq_only]⟩
    · obtain ⟨hn, hg⟩ := ihl false q g1 hq
      refine ⟨by simpa [subtree] using hn, ?_⟩
      simp [eq_only, hg]
    · obtain ⟨hn, hg⟩ := ihe f q g1 hq
      refine ⟨by simpa [subtree] using hn, ?_⟩
      simp [eq_only, hg]
    · obtain ⟨hn, hg⟩ := ihg false q g1 hq
      refine ⟨by simpa [subtree] using hn, ?_⟩
      simp [eq_only, hg]

/-- An index below `num_nodes()` selects a node of the tree, never the null node. -/
theorem nth_element_some (t : tree_element) (k : Nat) (hk : k < t.num_nodes) :
    ∃ ptr flag target, t.nth_element k = some (ptr, flag) ∧ t.subtree ptr = some target ∧
      flag = eq_only ptr := by
  have hlen : k < (t.elements true).length := by rw [elements_length]; exact hk
  have hmem := List.getElem_mem hlen
  obtain ⟨⟨n, hn⟩, hg⟩ := mem_elements t true _ _ hmem
  refine ⟨((t.elements true)[k]).1, ((t.elements true)[k]).2, n, ?_, hn, by simpa using hg⟩
  simp [nth_element, List.getElem?_eq_getElem hlen]

theorem eq_leaf_ok_replace (t : tree_element) (p : List Branch) (m : tree_element)
    (hs : ∃ n, t.subtree p = some n) :
    (t.replace p m).eq_leaf_ok = if eq_only p = true then m.eq_leaf_ok else t.eq_leaf_ok := by
  induction p generalizing t with
  | nil => simp [replace, eq_only]
  | cons b p ih =>
    cases t with
    | leaf c =>
      obtain ⟨n, hn⟩ := hs
      simp [subtree_leaf_cons] at hn
    | node lt eq gt o =>
      cases b with
      | lt => simp [replace, eq_leaf_ok, eq_only]
      | eq =>
        have := ih eq (by simpa [subtree] using hs)
        simpa [replace, eq_leaf_ok, eq_only] using this
      | gt => simp [replace, eq_leaf_ok, eq_only]

theorem eq_leaf_ok_subtree (t : tree_element) (p : List Branch) (n : tree_element)
    (hp : eq_only p = true) (hs : t.subtree p = some n) : t.eq_leaf_ok = n.eq_leaf_ok := by
  induction p generalizing t with
  | nil =>
    simp only [subtree, Option.some.injEq] at hs
    rw [hs]
  | cons b p ih =>
    cases t with
    | leaf c => simp [subtree_leaf_cons] at hs
    | node lt eq gt o =>
      cases b with
      | lt => simp [eq_only] at hp
      | eq =>
        simp only [eq_leaf_ok]
        exact ih eq (by simpa [eq_only] using hp) (by simpa [subtree] using hs)
      | gt => simp [eq_only] at hp

/-- The operators other than the branch copy always return, and on an eq-reachable node
whose eq spine ends in a non-corner they leave a node with the same property. -/
theorem mutate_node_eq_leaf_ok (D : Draws) (num_offsets : Nat) (offset_sigma : ℚ)
    (fuel : Nat) (target : tree_element) (node_is_eq : Bool) (pos : Nat)
    (hop : chosen_operator D target node_is_eq pos ≠ Operator.branch_copy) :
    ∃ n1 pos1, mutate_node D num_offsets offset_sigma fuel target node_is_eq pos =
        some (n1, pos1) ∧
      (node_is_eq = true → target.eq_leaf_ok = true → n1.eq_leaf_ok = true) := by
  cases target with
  | leaf c =>
    by_cases hg : ((D.rand pos % 2 != 0) || node_is_eq) = true
    · refine ⟨(random_tree D num_offsets offset_sigma 1 true (pos + 1)).1,
        (random_tree D num_offsets offset_sigma 1 true (pos + 1)).2, ?_, ?_⟩
      · simp only [mutate_node, hg, if_true]
      · intro _ _
        simp [random_tree_one, eq_leaf_ok]
    · refine ⟨leaf (!c), pos + 1, ?_, ?_⟩
      · simp only [mutate_node, hg]
        rfl
      · intro hf
        simp [hf] at hg
  | node lt eq gt o =>
    by_cases h1 : D.rand_u pos < one_third
    · refine ⟨node lt eq gt (D.rand (pos + 1) % num_offsets), pos + 2, ?_, ?_⟩
      · simp only [mutate_node, h1, if_true]
      · intro _ h
        simpa [eq_leaf_ok] using h
    · by_cases h2 : D.rand_u pos < two_thirds
      · simp [chosen_operator, h1, h2] at hop
      · by_cases hf : node_is_eq = true
        · refine ⟨leaf false, pos + 1, ?_, ?_⟩
          · simp only [mutate_node, h1, h2, hf, if_true, if_false]
          · intro _ _
            simp [eq_leaf_ok]
        · refine ⟨leaf (D.rand (pos + 1) % 2 != 0), pos + 2, ?_, ?_⟩
          · simp [mutate_node, h1, h2, hf]
          · intro h
            exact absurd h hf

theorem random_tree_offsets_in_range (D : Draws) (num_offsets : Nat) (s : ℚ) (d : Nat)
    (f : Bool) (pos : Nat) (hn : 0 < num_offsets) :
    offsets_in_range num_offsets (random_tree D num_offsets s d f pos).1 = true := by
  induction d generalizing f pos with
  | zero =>
    unfold random_tree
    split_ifs <;> rfl
  | succ d ih => simp [random_tree, offsets_in_range, ih, Nat.mod_lt _ hn]

theorem offsets_in_range_subtree (num_offsets : Nat) (t : tree_element) (p : List Branch)
    (n : tree_element) (ht : offsets_in_range num_offsets t = true)
    (hs : t.subtree p = some n) : offsets_in_range num_offsets n = true := by
  induction p generalizing t with
  | nil =>
    simp only [subtree, Option.some.injEq] at hs
    rw [← hs]
    exact ht
  | cons b p ih =>
    cases t with
    | leaf c => simp [subtree_leaf_cons] at hs
    | node lt eq gt o =>
      simp only [offsets_in_range, Bool.and_eq_true] at ht
      cases b with
      | lt => exact ih lt ht.1.1.2 (by simpa [subtree] using hs)
      | eq => exact ih eq ht.1.2 (by simpa [subtree] using hs)
      | gt => exact ih gt ht.2 (by simpa [subtree] using hs)

theorem offsets_in_range_replace (num_offsets : Nat) (t : tree_element) (p : List Branch)
    (m : tree_element) (ht : offsets_in_range num_offsets t = true)
    (hm : offsets_in_range num_offsets m = true) :
    offsets_in_range num_offsets (t.replace p m) = true := by
  induction p generalizing t with
  | nil => simpa [replace] using hm
  | cons b p ih =>
    cases t with
    | leaf c => simpa [replace] using ht
    | node lt eq gt o =>
      simp only [offsets_in_range, Bool.and_eq_true] at ht
      cases b with
      | lt => simp [replace, offsets_in_range, ht.1.1.1, ih lt ht.1.1.2, ht.1.2, ht.2]
      | eq => simp [replace, offsets_in_range, ht.1.1.1, ih eq ht.1.2, ht.1.1.2, ht.2]
      | gt => simp [replace, offsets_in_range, ht.1.1.1, ih gt ht.2, ht.1.1.2, ht.1.2]

/-- Every operator leaves a node whose tests are in range. -/
theorem mutate_node_offsets_in_range (D : Draws) (num_offsets : Nat) (offset_sigma : ℚ)
    (fuel : Nat) (target : tree_element) (node_is_eq : Bool) (pos : Nat)
    (n1 : tree_element) (pos1 : Nat) (hn : 0 < num_offsets)
    (ht : offsets_in_range num_offsets target = true)
    (hm : mutate_node D num_offsets offset_sigma fuel target node_is_eq pos = some (n1, pos1)) :
    offsets_in_range num_offsets n1 = true := by
  cases target with
  | leaf c =>
    simp only [mutate_node] at hm
    split_ifs at hm
    · simp only [Option.some.injEq] at hm
      have := random_tree_offsets_in_range D num_offsets offset_sigma 1 true (pos + 1) hn
      rw [hm] at this
      exact this
    · simp only [Option.some.injEq, Prod.mk.injEq] at hm
      rw [← hm.1]
      rfl
  | node lt eq gt o =>
    simp only [offsets_in_range, Bool.and_eq_true, decide_eq_true_eq] at ht
    obtain ⟨⟨⟨ho, hl⟩, he⟩, hg⟩ := ht
    by_cases h1 : D.rand_u pos < one_third
    · simp only [mutate_node, h1, if_true, Option.some.injEq, Prod.mk.injEq] at hm
      rw [← hm.1]
      simp [offsets_in_range, Nat.mod_lt _ hn, hl, he, hg]
    · by_cases h2 : D.rand_u pos < two_thirds
      · simp only [mutate_node, h1, h2, if_true, if_false] at hm
        cases hd : draw_copy_source D (D.rand (pos + 1) % 3) fuel (pos + 2) with
        | none => simp [hd] at hm
        | some cp =>
          obtain ⟨c, p1⟩ := cp
          simp only [hd, copy_eq] at hm
          split_ifs at hm <;> simp only [Option.some.injEq, Prod.mk.injEq] at hm <;>
            rw [← hm.1] <;> simp [offsets_in_range, ho, hl, he, hg]
      · simp only [mutate_node, h1, h2, if_false] at hm
        split_ifs at hm <;> simp only [Option.some.injEq, Prod.mk.injEq] at hm <;>
          rw [← hm.1] <;> rfl

theorem in_image_of_size_eq {α β : Type} (im1 : Image α) (im2 : Image β) (p : ImageRef)
    (h : im1.size = im2.size) : im1.in_image p = im2.in_image p := by
  simp [Image.in_image, h]

/-- The inner loop of `paint_circles` for one corner `c`. -/
theorem paint_one_corner (c : ImageRef) (circle : List ImageRef) (im : Image Bool) :
    (circle.foldl (fun im d => if im.in_image (c + d) then im.set (c + d) true else im)
        im).size = im.size ∧
      ∀ p, (circle.foldl (fun im d => if im.in_image (c + d) then im.set (c + d) true else im)
          im).data p = true ↔
        (im.data p = true ∨ (im.in_image p = true ∧ ∃ d ∈ circle, p = c + d)) := by
  induction circle generalizing im with
  | nil => simp
  | cons d ds ih =>
    simp only [List.foldl_cons]
    by_cases hin : im.in_image (c + d) = true
    · simp only [hin, if_true]
      obtain ⟨hs, hd⟩ := ih (im.set (c + d) true)
      refine ⟨hs, ?_⟩
      intro p
      rw [hd p]
      have hsz : (im.set (c + d) true).in_image p = im.in_image p :=
        in_image_of_size_eq _ _ p rfl
      rw [hsz]
      by_cases hp : p = c + d
      · subst hp
        simp [Image.set, hin]
      · simp only [Image.set, hp, if_false, List.mem_cons, exists_eq_or_imp, false_or]
    · rw [if_neg hin]
      obtain ⟨hs, hd⟩ := ih im
      refine ⟨hs, ?_⟩
      intro p
      rw [hd p]
      constructor
      · rintro (h | ⟨h1, d1, hd1, rfl⟩)
        · exact Or.inl h
        · exact Or.inr ⟨h1, d1, List.mem_cons_of_mem _ hd1, rfl⟩
      · rintro (h | ⟨h1, d1, hd1, rfl⟩)
        · exact Or.inl h
        · rcases List.mem_cons.mp hd1 with rfl | hd1
          · exact absurd h1 hin
          · exact Or.inr ⟨h1, d1, hd1, rfl⟩

/-- The outer loop of `paint_circles`, from any starting image. -/
theorem paint_all_corners (corners circle : List ImageRef) (im : Image Bool) :
    (corners.foldl (fun im c =>
        circle.foldl (fun im d => if im.in_image (c + d) then im.set (c + d) true else im) im)
        im).size = im.size ∧
      ∀ p, (corners.foldl (fun im c =>
          circle.foldl (fun im d => if im.in_image (c + d) then im.set (c + d) true else im) im)
          im).data p = true ↔
        (im.data p = true ∨
          (im.in_image p = true ∧ ∃ c ∈ corners, ∃ d ∈ circle, p = c + d)) := by
  induction corners generalizing im with
  | nil => simp
  | cons c cs ih =>
    simp only [List.foldl_cons]
    obtain ⟨hs1, hd1⟩ := paint_one_corner c circle im
    obtain ⟨hs, hd⟩ := ih
      (circle.foldl (fun im d => if im.in_image (c + d) then im.set (c + d) true else im) im)
    refine ⟨hs.trans hs1, ?_⟩
    intro p
    rw [hd p, hd1 p, in_image_of_size_eq _ im p hs1]
    constructor
    · rintro ((h | ⟨h1, d, hdm, rfl⟩) | ⟨h1, c1, hc1, d, hdm, rfl⟩)
      · exact Or.inl h
      · exact Or.inr ⟨h1, c, List.mem_cons_self _ _, d, hdm, rfl⟩
      · exact Or.inr ⟨h1, c1, List.mem_cons_of_mem _ hc1, d, hdm, rfl⟩
    · rintro (h | ⟨h1, c1, hc1, d, hdm, rfl⟩)
      · exact Or.inl (Or.inl h)
      · rcases List.mem_cons.mp hc1 with rfl | hc1
        · exact Or.inl (Or.inr ⟨h1, d, hdm, rfl⟩)
        · exact Or.inr ⟨h1, c1, hc1, d, hdm, rfl⟩

theorem in_image_eq_in_frame {α : Type} (im : Image α) (p : ImageRef) :
    im.in_image p = in_frame im.size p := rfl

theorem prune_entry_cases (size : ImageRef) (v : Vec2) :
    prune_entry size v = outside ∨ in_frame size (ir_rounded (prune_entry size v)) = true := by
  unfold prune_entry
  by_cases h : in_frame size (ir_rounded v) = true
  · right
    simp [h]
  · left
    simp [h]

theorem foldl_checked {α β : Type} (f : β → α → β) (g : Option β → α → Option β)
    (l : List α) (h : ∀ x ∈ l, ∀ b, g (some b) x = some (f b x)) (b : β) :
    l.foldl g (some b) = some (l.foldl f b) := by
  induction l generalizing b with
  | nil => rfl
  | cons x xs ih =>
    rw [List.foldl_cons, List.foldl_cons, h x (List.mem_cons_self _ _) b]
    exact ih (fun y hy => h y (List.mem_cons_of_mem _ hy)) _

theorem detected_get (corners : List (List ImageRef)) (r : Int) (size : ImageRef) (j : Nat)
    (hj : j < corners.length) :
    (detected_images corners r size).get? j =
        some (paint_circles (corners.getD j []) (generate_disc r) size) ∧
      (detected_images corners r size).getD j { size := ⟨0, 0⟩, data := fun _ => false } =
        paint_circles (corners.getD j []) (generate_disc r) size := by
  unfold detected_images
  have hj2 : j < (corners.map (fun cs => paint_circles cs (generate_disc r) size)).length := by
    simpa using hj
  constructor
  · rw [List.get?_eq_getElem?, List.getElem?_eq_getElem hj2, List.getElem_map,
      List.getD_eq_getElem _ _ hj]
  · rw [List.getD_eq_getElem _ _ hj2, List.getElem_map, List.getD_eq_getElem _ _ hj]

/-- Under the hypotheses of bounds safety, the two reads of one visit are inside their
images and the checked body agrees with the unchecked one. -/
theorem test_corner_checked_eq (warps : Nat → Nat → Image Vec2)
    (corners : List (List ImageRef)) (r : Int) (size : ImageRef) (i j : Nat) (c : ImageRef)
    (acc : Counters) (hj : j < corners.length)
    (hc : in_frame size c = true) (hw : (warps i j).size = size)
    (hp : (warps i j).data c = outside ∨
      in_frame size (ir_rounded ((warps i j).data c)) = true) :
    test_corner_checked warps (detected_images corners r size) i j (some acc) c =
      some (test_corner warps (detected_images corners r size) i j acc c) := by
  have hread : (warps i j).read c = some ((warps i j).data c) := by
    simp [Image.read, in_image_eq_in_frame, hw, hc]
  obtain ⟨hget, hgetD⟩ := detected_get corners r size j hj
  simp only [test_corner_checked, test_corner, hread, hget, hgetD]
  by_cases hx : (ir_rounded ((warps i j).data c)).x = -1
  · simp [hx]
  · have hin : in_frame size (ir_rounded ((warps i j).data c)) = true := by
      rcases hp with h | h
      · rw [h, ir_rounded_outside] at hx
        exact absurd rfl hx
      · exact h
    have hsz := (paint_circles_marks_inside (corners.getD j []) (generate_disc r) size).1
    have hread2 : (paint_circles (corners.getD j []) (generate_disc r) size).read
        (ir_rounded ((warps i j).data c)) =
        some ((paint_circles (corners.getD j []) (generate_disc r) size).data
          (ir_rounded ((warps i j).data c))) := by
      simp only [Image.read, in_image_eq_in_frame, hsz, hin, if_true]
    simp only [hx, ne_eq, not_false_eq_true, if_true, hread2]

theorem compute_temperature_zero (scale alpha : ℝ) (imax : Int) :
    compute_temperature scale alpha 0 imax = scale := by
  simp [compute_temperature]

/-- On finite costs and a non-zero temperature the body of the loop is the iteration on
real costs. -/
theorem learn_detector_body_fin (D : Draws) (num_offsets : Nat) (offset_sigma : ℚ)
    (fuel : Nat) (scale alpha : ℝ) (iterations : Nat) (cost_of : tree_element → ℝ)
    (itnum : Nat) (st : AnnealState)
    (hT : compute_temperature scale alpha (itnum : Int) (iterations : Int) ≠ 0) :
    learn_detector_body D num_offsets offset_sigma fuel scale alpha iterations
        (fun t => Dbl.fin (cost_of t)) itnum st.toLoopVars =
      (learn_detector_iteration D num_offsets offset_sigma fuel scale alpha iterations cost_of
        itnum st).map AnnealState.toLoopVars := by
  unfold learn_detector_body learn_detector_iteration working_copy propose
  simp only [AnnealState.toLoopVars]
  cases hp : (if (!st.first_time) = true then
      mutation_step D num_offsets offset_sigma fuel st.tree.copy st.pos
      else some (st.tree.copy, st.pos)) with
  | none => simp
  | some np =>
    obtain ⟨new_tree, pos⟩ := np
    simp only [Option.map_some', accept_or_reject, liklihood_dbl, Dbl.sub, Dbl.div_real, hT,
      if_false, Dbl.exp, Dbl.real_lt, liklihood, decide_eq_true_eq]
    split_ifs <;> rfl

theorem round_even_floor_le {K : Type} [LinearOrderedField K] [FloorRing K]
    (y : K) : ⌊y⌋ ≤ round_even y := by
  unfold round_even
  split_ifs <;> omega

theorem round_even_le_floor_succ {K : Type} [LinearOrderedField K] [FloorRing K]
    (y : K) : round_even y ≤ ⌊y⌋ + 1 := by
  unfold round_even
  split_ifs <;> omega

theorem round_even_intCast {K : Type} [LinearOrderedField K] [FloorRing K]
    (n : ℤ) : round_even (n : K) = n := by
  unfold round_even
  simp

theorem le_round_even {K : Type} [LinearOrderedField K] [FloorRing K]
    (n : ℤ) (y : K) (h : (n : K) ≤ y) : n ≤ round_even y :=
  le_trans (Int.le_floor.mpr h) (round_even_floor_le y)

theorem round_even_le {K : Type} [LinearOrderedField K] [FloorRing K]
    (n : ℤ) (y : K) (h : y ≤ (n : K)) : round_even y ≤ n := by
  rcases eq_or_lt_of_le h with h | h
  · rw [h, round_even_intCast]
  · have : ⌊y⌋ < n := Int.floor_lt.mpr h
    have := round_even_le_floor_succ y
    omega

theorem round_even_mono {K : Type} [LinearOrderedField K] [FloorRing K]
    {x y : K} (h : x ≤ y) : round_even x ≤ round_even y := by
  have hf : ⌊x⌋ ≤ ⌊y⌋ := Int.floor_mono h
  rcases eq_or_lt_of_le hf with hf | hf
  · have hfr : Int.fract x ≤ Int.fract y := by
      unfold Int.fract
      rw [hf]
      linarith
    unfold round_even
    rw [hf]
    split_ifs <;> first | omega | (exfalso; linarith)
  · have h1 := round_even_le_floor_succ x
    have h2 := round_even_floor_le y
    omega

theorem round_even_of_lt_half {K : Type} [LinearOrderedField K] [FloorRing K]
    (n : ℤ) (y : K) (h1 : (n : K) ≤ y) (h2 : y < n + 1 / 2) :
    round_even y = n := by
  have hfl : ⌊y⌋ = n := by
    rw [Int.floor_eq_iff]
    constructor <;> linarith
  have hfr : Int.fract y < 1 / 2 := by
    unfold Int.fract
    rw [hfl]
    linarith
  unfold round_even
  rw [if_pos hfr, hfl]

theorem round_even_of_gt_half {K : Type} [LinearOrderedField K] [FloorRing K]
    (n : ℤ) (y : K) (h1 : (n : K) + 1 / 2 < y) (h2 : y ≤ n + 1) :
    round_even y = n + 1 := by
  rcases eq_or_lt_of_le h2 with h | h
  · have : y = ((n + 1 : ℤ) : K) := by push_cast; exact h
    rw [this, round_even_intCast]
  · have hfl : ⌊y⌋ = n := by
      rw [Int.floor_eq_iff]
      constructor <;> linarith
    have hfr : 1 / 2 < Int.fract y := by
      unfold Int.fract
      rw [hfl]
      linarith
    unfold round_even
    rw [if_neg (not_lt.mpr hfr.le), if_pos hfr, hfl]

theorem round_even_tie {K : Type} [LinearOrderedField K] [FloorRing K]
    (n : ℤ) (hn : Even n) : round_even ((n : K) + 1 / 2) = n := by
  have hfl : ⌊(n : K) + 1 / 2⌋ = n := by
    rw [Int.floor_eq_iff]
    constructor <;> linarith
  have hfr : Int.fract ((n : K) + 1 / 2) = 1 / 2 := by
    unfold Int.fract
    rw [hfl]
    ring
  unfold round_even
  rw [hfr, hfl]
  simp [hn]

theorem binade_ge {K : Type} [LinearOrderedField K] [FloorRing K]
    (emin : ℤ) (x : K) : emin ≤ binade emin x := by
  unfold binade
  split_ifs
  · exact le_refl _
  · exact le_max_right _ _

theorem abs_lt_binade {K : Type} [LinearOrderedField K] [FloorRing K]
    (emin : ℤ) (x : K) : |x| < (2 : K) ^ (binade emin x + 1) := by
  unfold binade
  split_ifs with h
  · rw [h, abs_zero]
    positivity
  · have h1 : |x| < ((2 : ℕ) : K) ^ (Int.log 2 |x| + 1) :=
      Int.lt_zpow_succ_log_self (by norm_num) |x|
    have h2 : ((2 : ℕ) : K) ^ (Int.log 2 |x| + 1) ≤ ((2 : ℕ) : K) ^ (max (Int.log 2 |x|) emin + 1) :=
      zpow_le_zpow_right₀ (by norm_num) (by have := le_max_left (Int.log 2 |x|) emin; omega)
    have := lt_of_lt_of_le h1 h2
    simpa using this

theorem binade_le_abs {K : Type} [LinearOrderedField K] [FloorRing K]
    (emin : ℤ) (x : K) (h : emin < binade emin x) :
    (2 : K) ^ binade emin x ≤ |x| := by
  unfold binade at h ⊢
  split_ifs at h ⊢ with h0
  · exact absurd h (lt_irrefl _)
  · have hmax : max (Int.log 2 |x|) emin = Int.log 2 |x| := by
      rcases le_total (Int.log 2 |x|) emin with hle | hle
      · rw [max_eq_right hle] at h
        exact absurd h (lt_irrefl _)
      · exact max_eq_left hle
    rw [hmax]
    have := Int.zpow_log_le_self (b := 2) (r := |x|) (by norm_num) (abs_pos.mpr h0)
    simpa using this

theorem binade_eq {K : Type} [LinearOrderedField K] [FloorRing K]
    (emin k : ℤ) (x : K) (h1 : (2 : K) ^ k ≤ |x|) (h2 : |x| < (2 : K) ^ (k + 1))
    (hk : emin ≤ k) : binade emin x = k := by
  have hpos : 0 < |x| := lt_of_lt_of_le (by positivity) h1
  have hx : x ≠ 0 := abs_pos.mp hpos
  have hlog : Int.log 2 |x| = k := by
    apply le_antisymm
    · have : Int.log 2 |x| < k + 1 := by
        rw [← Int.lt_zpow_iff_log_lt (by norm_num) hpos]
        simpa using h2
      omega
    · rw [← Int.zpow_le_iff_le_log (by norm_num) hpos]
      simpa using h1
  unfold binade
  rw [if_neg hx, hlog, max_eq_left hk]

theorem binade_mono {K : Type} [LinearOrderedField K] [FloorRing K]
    (emin : ℤ) {x y : K} (h : |x| ≤ |y|) : binade emin x ≤ binade emin y := by
  by_cases hx : x = 0
  · have : binade emin x = emin := by simp [binade, hx]
    rw [this]
    exact binade_ge emin y
  · have hxp : 0 < |x| := abs_pos.mpr hx
    have hy : y ≠ 0 := abs_pos.mp (lt_of_lt_of_le hxp h)
    unfold binade
    rw [if_neg hx, if_neg hy]
    exact max_le_max (Int.log_mono_right hxp h) (le_refl _)

theorem round_to_le_of_le {K : Type} [LinearOrderedField K] [FloorRing K]
    (frac : ℕ) (emin : ℤ) (x : K) (N : ℤ)
    (h : x ≤ (N : K) * (2 : K) ^ (binade emin x - (frac : ℤ))) :
    round_to frac emin x ≤ (N : K) * (2 : K) ^ (binade emin x - (frac : ℤ)) := by
  have hu : (0 : K) < (2 : K) ^ (binade emin x - (frac : ℤ)) := by positivity
  unfold round_to
  apply mul_le_mul_of_nonneg_right _ hu.le
  have : round_even (x / (2 : K) ^ (binade emin x - (frac : ℤ))) ≤ N :=
    round_even_le N _ ((div_le_iff₀ hu).mpr h)
  exact_mod_cast this

theorem le_round_to_of_le {K : Type} [LinearOrderedField K] [FloorRing K]
    (frac : ℕ) (emin : ℤ) (x : K) (N : ℤ)
    (h : (N : K) * (2 : K) ^ (binade emin x - (frac : ℤ)) ≤ x) :
    (N : K) * (2 : K) ^ (binade emin x - (frac : ℤ)) ≤ round_to frac emin x := by
  have hu : (0 : K) < (2 : K) ^ (binade emin x - (frac : ℤ)) := by positivity
  unfold round_to
  apply mul_le_mul_of_nonneg_right _ hu.le
  have : N ≤ round_even (x / (2 : K) ^ (binade emin x - (frac : ℤ))) :=
    le_round_even N _ ((le_div_iff₀ hu).mpr h)
  exact_mod_cast this

theorem zpow_split {K : Type} [LinearOrderedField K] [FloorRing K] (frac : ℕ) (b : ℤ) :
    (2 : K) ^ b = ((2 ^ frac : ℤ) : K) * (2 : K) ^ (b - (frac : ℤ)) := by
  push_cast
  rw [← zpow_natCast, ← zpow_add₀ (by norm_num : (2 : K) ≠ 0)]
  congr 1
  omega

theorem zpow_split_succ {K : Type} [LinearOrderedField K] [FloorRing K] (frac : ℕ) (b : ℤ) :
    (2 : K) ^ (b + 1) = ((2 ^ (frac + 1) : ℤ) : K) * (2 : K) ^ (b - (frac : ℤ)) := by
  push_cast
  rw [← zpow_natCast, ← zpow_add₀ (by norm_num : (2 : K) ≠ 0)]
  congr 1
  push_cast
  omega

/-- Rounding is monotone. -/
theorem round_to_mono {K : Type} [LinearOrderedField K] [FloorRing K]
    (frac : ℕ) (emin : ℤ) {x y : K} (h : x ≤ y) :
    round_to frac emin x ≤ round_to frac emin y := by
  rcases lt_trichotomy (binade emin x) (binade emin y) with hb | hb | hb
  · -- the binade of y is larger: y is positive and above a power of two
    have habs : |x| < |y| := by
      by_contra hc
      have := binade_mono emin (not_lt.mp hc)
      omega
    have hy : 0 < y := by
      by_contra hc
      have hy0 : y ≤ 0 := not_lt.mp hc
      have hx0 : x ≤ 0 := le_trans h hy0
      rw [abs_of_nonpos hx0, abs_of_nonpos hy0] at habs
      linarith
    have hlow : (2 : K) ^ binade emin y ≤ round_to frac emin y := by
      have h1 := binade_le_abs emin y (lt_of_le_of_lt (binade_ge emin x) hb)
      rw [abs_of_pos hy] at h1
      rw [zpow_split frac] at h1 ⊢
      exact le_round_to_of_le frac emin y _ h1
    have hup : round_to frac emin x ≤ (2 : K) ^ (binade emin x + 1) := by
      have h1 := abs_lt_binade emin x
      have h2 : x ≤ (2 : K) ^ (binade emin x + 1) := le_trans (le_abs_self x) h1.le
      rw [zpow_split_succ frac] at h2 ⊢
      exact round_to_le_of_le frac emin x _ h2
    have hpow : (2 : K) ^ (binade emin x + 1) ≤ (2 : K) ^ binade emin y :=
      zpow_le_zpow_right₀ (by norm_num) (by omega)
    linarith
  · unfold round_to
    rw [hb]
    have hu : (0 : K) < (2 : K) ^ (binade emin y - (frac : ℤ)) := by positivity
    apply mul_le_mul_of_nonneg_right _ hu.le
    have := round_even_mono (div_le_div_of_nonneg_right h hu.le)
    exact_mod_cast this
  · have habs : |y| < |x| := by
      by_contra hc
      have := binade_mono emin (not_lt.mp hc)
      omega
    have hx : x < 0 := by
      by_contra hc
      have hx0 : 0 ≤ x := not_lt.mp hc
      have hy0 : 0 ≤ y := le_trans hx0 h
      rw [abs_of_nonneg hx0, abs_of_nonneg hy0] at habs
      linarith
    have hup : round_to frac emin x ≤ -(2 : K) ^ binade emin x := by
      have h1 := binade_le_abs emin x (lt_of_le_of_lt (binade_ge emin y) hb)
      rw [abs_of_neg hx] at h1
      have h2 : x ≤ ((-(2 ^ frac) : ℤ) : K) * (2 : K) ^ (binade emin x - (frac : ℤ)) := by
        have := zpow_split (K := K) frac (binade emin x)
        push_cast at this ⊢
        linarith
      have := round_to_le_of_le frac emin x _ h2
      have h3 := zpow_split (K := K) frac (binade emin x)
      push_cast at this h3
      linarith
    have hlow : -(2 : K) ^ (binade emin y + 1) ≤ round_to frac emin y := by
      have h1 := abs_lt_binade emin y
      have h2 : -(2 : K) ^ (binade emin y + 1) ≤ y := by
        have := neg_abs_le y
        linarith
      have h3 : ((-(2 ^ (frac + 1)) : ℤ) : K) * (2 : K) ^ (binade emin y - (frac : ℤ)) ≤ y := by
        have := zpow_split_succ (K := K) frac (binade emin y)
        push_cast at this ⊢
        linarith
      have := le_round_to_of_le frac emin y _ h3
      have h4 := zpow_split_succ (K := K) frac (binade emin y)
      push_cast at this h4
      linarith
    have hpow : (2 : K) ^ (binade emin y + 1) ≤ (2 : K) ^ binade emin x :=
      zpow_le_zpow_right₀ (by norm_num) (by omega)
    linarith

theorem round_to_zero {K : Type} [LinearOrderedField K] [FloorRing K] (frac : ℕ) (emin : ℤ) :
    round_to frac emin (0 : K) = 0 := by
  have : round_even (0 : K) = 0 := by simpa using round_even_intCast (K := K) 0
  simp [round_to, this]

theorem round_to_eq_of_binade {K : Type} [LinearOrderedField K] [FloorRing K]
    (frac : ℕ) (emin k : ℤ) (x : K) (h1 : (2 : K) ^ k ≤ |x|)
    (h2 : |x| < (2 : K) ^ (k + 1)) (hk : emin ≤ k) :
    round_to frac emin x =
      (round_even (x / (2 : K) ^ (k - (frac : ℤ))) : K) * (2 : K) ^ (k - (frac : ℤ)) := by
  unfold round_to
  rw [binade_eq emin k x h1 h2 hk]

/-- A value `N * 2 ^ (k - frac)` with a full-width integer significand `N` is its own
rounding. -/
theorem round_to_int_mul {K : Type} [LinearOrderedField K] [FloorRing K]
    (frac : ℕ) (emin k : ℤ) (N : ℤ) (hN1 : 2 ^ frac ≤ |N|)
    (hN2 : |N| < 2 ^ (frac + 1)) (hk : emin ≤ k) :
    round_to frac emin ((N : K) * (2 : K) ^ (k - (frac : ℤ))) =
      (N : K) * (2 : K) ^ (k - (frac : ℤ)) := by
  have hu : (0 : K) < (2 : K) ^ (k - (frac : ℤ)) := by positivity
  have habs : |(N : K) * (2 : K) ^ (k - (frac : ℤ))| = (|N| : ℤ) * (2 : K) ^ (k - (frac : ℤ)) := by
    rw [abs_mul, abs_of_pos hu]
    push_cast
    rfl
  have h1 : (2 : K) ^ k ≤ |(N : K) * (2 : K) ^ (k - (frac : ℤ))| := by
    rw [habs, zpow_split frac k]
    apply mul_le_mul_of_nonneg_right _ hu.le
    exact_mod_cast hN1
  have h2 : |(N : K) * (2 : K) ^ (k - (frac : ℤ))| < (2 : K) ^ (k + 1) := by
    rw [habs, zpow_split_succ frac k]
    apply mul_lt_mul_of_pos_right _ hu
    exact_mod_cast hN2
  rw [round_to_eq_of_binade frac emin k _ h1 h2 hk, mul_div_assoc, div_self hu.ne', mul_one,
    round_even_intCast]

theorem round_to_zpow {K : Type} [LinearOrderedField K] [FloorRing K]
    (frac : ℕ) (emin k : ℤ) (hk : emin ≤ k) :
    round_to frac emin ((2 : K) ^ k) = (2 : K) ^ k := by
  have h := round_to_int_mul (K := K) frac emin k (2 ^ frac) (by simp) (by
    rw [abs_of_pos (by positivity)]
    exact pow_lt_pow_right₀ (by norm_num) (Nat.lt_succ_self _)) hk
  rw [← zpow_split frac k] at h
  exact h

theorem round_to_neg_zpow {K : Type} [LinearOrderedField K] [FloorRing K]
    (frac : ℕ) (emin k : ℤ) (hk : emin ≤ k) :
    round_to frac emin (-(2 : K) ^ k) = -(2 : K) ^ k := by
  have h := round_to_int_mul (K := K) frac emin k (-(2 ^ frac)) (by simp) (by
    rw [abs_neg, abs_of_pos (by positivity)]
    exact pow_lt_pow_right₀ (by norm_num) (Nat.lt_succ_self _)) hk
  have h2 := zpow_split (K := K) frac k
  push_cast at h h2
  rw [neg_mul, ← h2] at h
  exact h

/-- A natural number below `2 ^ (frac + 1)` is its own rounding. -/
theorem round_to_natCast {K : Type} [LinearOrderedField K] [FloorRing K]
    (frac : ℕ) (emin : ℤ) (hemin : emin ≤ 0) (n : ℕ)
    (hn : n < 2 ^ (frac + 1)) : round_to frac emin (n : K) = (n : K) := by
  rcases Nat.eq_zero_or_pos n with h0 | hpos
  · simp [h0, round_to_zero]
  · have hk1 : 2 ^ Nat.log 2 n ≤ n := Nat.pow_log_le_self 2 (by omega)
    have hk2 : n < 2 ^ (Nat.log 2 n + 1) := Nat.lt_pow_succ_log_self (by norm_num) n
    have hkle : Nat.log 2 n ≤ frac := by
      have : 2 ^ Nat.log 2 n < 2 ^ (frac + 1) := lt_of_le_of_lt hk1 hn
      have := (Nat.pow_lt_pow_iff_right (by norm_num : 1 < 2)).mp this
      omega
    obtain ⟨j, hj⟩ := Nat.exists_eq_add_of_le hkle
    have hN1 : (2 : ℤ) ^ frac ≤ |((n * 2 ^ j : ℕ) : ℤ)| := by
      rw [abs_of_nonneg (by positivity)]
      have : 2 ^ frac ≤ n * 2 ^ j := by
        rw [hj, pow_add]
        exact Nat.mul_le_mul_right _ hk1
      exact_mod_cast this
    have hN2 : |((n * 2 ^ j : ℕ) : ℤ)| < (2 : ℤ) ^ (frac + 1) := by
      rw [abs_of_nonneg (by positivity)]
      have : n * 2 ^ j < 2 ^ (frac + 1) := by
        have h3 : 2 ^ (frac + 1) = 2 ^ (Nat.log 2 n + 1) * 2 ^ j := by
          rw [← pow_add]
          congr 1
          omega
        rw [h3]
        exact Nat.mul_lt_mul_of_pos_right hk2 (by positivity)
      exact_mod_cast this
    have h := round_to_int_mul (K := K) frac emin (Nat.log 2 n : ℤ) ((n * 2 ^ j : ℕ) : ℤ) hN1 hN2
      (by omega)
    have hval : (((n * 2 ^ j : ℕ) : ℤ) : K) * (2 : K) ^ ((Nat.log 2 n : ℤ) - (frac : ℤ)) = n := by
      have hexp : ((Nat.log 2 n : ℤ) - (frac : ℤ)) = -(j : ℤ) := by omega
      rw [hexp, zpow_neg, zpow_natCast]
      push_cast
      field_simp
    rw [hval] at h
    exact h

theorem round_double_natCast {K : Type} [LinearOrderedField K] [FloorRing K]
    (n : ℕ) (hn : n < 2 ^ 53) :
    round_double (n : K) = (n : K) :=
  round_to_natCast 52 (-1022) (by norm_num) n hn

theorem round_double_one {K : Type} [LinearOrderedField K] [FloorRing K] :
    round_double (1 : K) = 1 := by
  have := round_double_natCast (K := K) 1 (by norm_num)
  simpa using this

theorem round_float_one {K : Type} [LinearOrderedField K] [FloorRing K] :
    round_float (1 : K) = 1 := by
  have := round_to_natCast (K := K) 23 (-126) (by norm_num) 1 (by norm_num)
  simpa [round_float] using this

theorem round_double_eps_add {K : Type} [LinearOrderedField K] [FloorRing K]
    (t : ℕ) (h2 : 2 ≤ t) (h : t < 2 ^ 53) :
    round_double (1 / 2 ^ 52 + (t : K)) = (t : K) := by
  have hk1 : 2 ^ Nat.log 2 t ≤ t := Nat.pow_log_le_self 2 (by omega)
  have hk2 : t < 2 ^ (Nat.log 2 t + 1) := Nat.lt_pow_succ_log_self (by norm_num) t
  have hkle : Nat.log 2 t ≤ 52 := by
    have : 2 ^ Nat.log 2 t < 2 ^ 53 := lt_of_le_of_lt hk1 h
    have := (Nat.pow_lt_pow_iff_right (by norm_num : 1 < 2)).mp this
    omega
  have hkge : 1 ≤ Nat.log 2 t := by
    by_contra hc
    have h0 : Nat.log 2 t = 0 := by omega
    rw [h0] at hk2
    omega
  obtain ⟨j, hj⟩ := Nat.exists_eq_add_of_le hkle
  set k := Nat.log 2 t with hkdef
  have hx0 : (0 : K) < 1 / 2 ^ 52 + (t : K) := by positivity
  have hb1 : (2 : K) ^ (k : ℤ) ≤ |1 / 2 ^ 52 + (t : K)| := by
    rw [abs_of_pos hx0, zpow_natCast]
    have : ((2 ^ k : ℕ) : K) ≤ (t : K) := by exact_mod_cast hk1
    push_cast at this
    have he : (0 : K) < 1 / 2 ^ 52 := by positivity
    linarith
  have hb2 : |1 / 2 ^ 52 + (t : K)| < (2 : K) ^ ((k : ℤ) + 1) := by
    rw [abs_of_pos hx0]
    have h3 : ((t + 1 : ℕ) : K) ≤ ((2 ^ (k + 1) : ℕ) : K) := by exact_mod_cast hk2
    push_cast at h3
    have he : (1 : K) / 2 ^ 52 < 1 := by norm_num
    have h4 : (2 : K) ^ ((k : ℤ) + 1) = (2 : K) ^ (k + 1) := by
      rw [← zpow_natCast]
      push_cast
      rfl
    rw [h4]
    linarith
  unfold round_double
  rw [round_to_eq_of_binade 52 (-1022) (k : ℤ) _ hb1 hb2 (by omega)]
  have hexp : ((k : ℤ) - ((52 : ℕ) : ℤ)) = -(j : ℤ) := by omega
  rw [hexp, zpow_neg, zpow_natCast]
  have hdiv : (1 / 2 ^ 52 + (t : K)) / ((2 : K) ^ j)⁻¹ =
      (((t * 2 ^ j : ℕ) : ℤ) : K) + 1 / 2 ^ k := by
    have h52 : (2 : K) ^ 52 = 2 ^ k * 2 ^ j := by rw [← pow_add, ← hj]
    push_cast
    rw [h52]
    field_simp
    ring
  rw [hdiv]
  have hround : round_even ((((t * 2 ^ j : ℕ) : ℤ) : K) + 1 / 2 ^ k) = ((t * 2 ^ j : ℕ) : ℤ) := by
    rcases Nat.eq_or_lt_of_le hkge with hk | hk
    · have hj51 : j = 51 := by omega
      have hev : Even ((t * 2 ^ j : ℕ) : ℤ) := by
        rw [hj51]
        exact ⟨((t * 2 ^ 50 : ℕ) : ℤ), by push_cast; ring⟩
      have := round_even_tie (K := K) _ hev
      rw [← hk]
      simpa using this
    · apply round_even_of_lt_half
      · have : (0 : K) ≤ 1 / 2 ^ k := by positivity
        linarith
      · have h4 : (2 : K) ^ 2 ≤ 2 ^ k := pow_le_pow_right₀ (by norm_num) hk
        have h5 : (1 : K) / 2 ^ k ≤ 1 / 2 ^ 2 := one_div_le_one_div_of_le (by positivity) h4
        have h6 : (1 : K) / 2 ^ 2 < 1 / 2 := by norm_num
        linarith
  rw [hround]
  push_cast
  field_simp

theorem round_double_one_add_eps {K : Type} [LinearOrderedField K] [FloorRing K] :
    round_double ((1 : K) / 2 ^ 52 + 1) = 1 / 2 ^ 52 + 1 := by
  have h := round_to_int_mul (K := K) 52 (-1022) 0 (2 ^ 52 + 1) (by norm_num) (by norm_num) (by norm_num)
  have hv : (((2 ^ 52 + 1 : ℤ)) : K) * (2 : K) ^ ((0 : ℤ) - ((52 : ℕ) : ℤ)) = 1 / 2 ^ 52 + 1 := by
    norm_num
  rw [hv] at h
  exact h

theorem round_double_inv_one_add_eps {K : Type} [LinearOrderedField K] [FloorRing K] :
    round_double ((1 : K) / (1 / 2 ^ 52 + 1)) = 1 - 1 / 2 ^ 52 := by
  have hb1 : (2 : K) ^ (-1 : ℤ) ≤ |(1 : K) / (1 / 2 ^ 52 + 1)| := by
    rw [abs_of_pos (by positivity)]
    norm_num
  have hb2 : |(1 : K) / (1 / 2 ^ 52 + 1)| < (2 : K) ^ ((-1 : ℤ) + 1) := by
    rw [abs_of_pos (by positivity)]
    norm_num
  unfold round_double
  rw [round_to_eq_of_binade 52 (-1022) (-1) _ hb1 hb2 (by norm_num)]
  have hr : round_even ((1 : K) / (1 / 2 ^ 52 + 1) / (2 : K) ^ ((-1 : ℤ) - ((52 : ℕ) : ℤ))) =
      2 ^ 53 - 2 := by
    apply round_even_of_lt_half
    · norm_num
    · norm_num
  rw [hr]
  norm_num

theorem round_float_one_sub_eps {K : Type} [LinearOrderedField K] [FloorRing K] :
    round_float ((1 : K) - 1 / 2 ^ 52) = 1 := by
  have hb1 : (2 : K) ^ (-1 : ℤ) ≤ |(1 : K) - 1 / 2 ^ 52| := by
    rw [abs_of_pos (by norm_num)]
    norm_num
  have hb2 : |(1 : K) - 1 / 2 ^ 52| < (2 : K) ^ ((-1 : ℤ) + 1) := by
    rw [abs_of_pos (by norm_num)]
    norm_num
  unfold round_float
  rw [round_to_eq_of_binade 23 (-126) (-1) _ hb1 hb2 (by norm_num)]
  have hr : round_even (((1 : K) - 1 / 2 ^ 52) / (2 : K) ^ ((-1 : ℤ) - ((23 : ℕ) : ℤ))) =
      (2 ^ 24 - 1) + 1 := by
    apply round_even_of_gt_half
    · norm_num
    · norm_num
  rw [hr]
  norm_num

theorem round_double_mono {K : Type} [LinearOrderedField K] [FloorRing K]
    {x y : K} (h : x ≤ y) : round_double x ≤ round_double y :=
  round_to_mono 52 (-1022) h

theorem round_double_zero {K : Type} [LinearOrderedField K] [FloorRing K] :
    round_double (0 : K) = 0 := round_to_zero 52 (-1022)

theorem round_float_zero {K : Type} [LinearOrderedField K] [FloorRing K] :
    round_float (0 : K) = 0 := round_to_zero 23 (-126)

theorem round_double_nonneg {K : Type} [LinearOrderedField K] [FloorRing K]
    {x : K} (h : 0 ≤ x) : 0 ≤ round_double x := by
  have := round_double_mono h
  rwa [round_double_zero] at this

theorem round_double_one_le {K : Type} [LinearOrderedField K] [FloorRing K]
    {x : K} (h : 1 ≤ x) : 1 ≤ round_double x := by
  have := round_double_mono h
  rwa [round_double_one] at this

theorem round_double_le_one {K : Type} [LinearOrderedField K] [FloorRing K]
    {x : K} (h : x ≤ 1) : round_double x ≤ 1 := by
  have := round_double_mono h
  rwa [round_double_one] at this

/-- Every real number within half a spacing of 1 rounds to 1. -/
theorem round_double_near_one (y : ℝ) (h1 : 1 - 1 / 2 ^ 54 < y) (h2 : y < 1 + 1 / 2 ^ 53) :
    round_double y = 1 := by
  rcases lt_or_le y 1 with hy | hy
  · have hb1 : (2 : ℝ) ^ (-1 : ℤ) ≤ |y| := by
      rw [abs_of_pos (by linarith [show (1 : ℝ) / 2 ^ 54 < 1 by norm_num])]
      have : (2 : ℝ) ^ (-1 : ℤ) = 1 / 2 := by norm_num
      rw [this]
      have : (1 : ℝ) / 2 ^ 54 < 1 / 2 := by norm_num
      linarith
    have hb2 : |y| < (2 : ℝ) ^ ((-1 : ℤ) + 1) := by
      rw [abs_of_pos (by linarith [show (1 : ℝ) / 2 ^ 54 < 1 by norm_num])]
      simpa using hy
    unfold round_double
    rw [round_to_eq_of_binade 52 (-1022) (-1) _ hb1 hb2 (by norm_num)]
    have hpow : (2 : ℝ) ^ ((-1 : ℤ) - ((52 : ℕ) : ℤ)) = 1 / 2 ^ 53 := by norm_num
    rw [hpow]
    have hr : round_even (y / (1 / 2 ^ 53)) = (2 ^ 53 - 1) + 1 := by
      apply round_even_of_gt_half
      · rw [lt_div_iff₀ (by positivity)]
        have : (((2 ^ 53 - 1 : ℤ) : ℝ) + 1 / 2) * (1 / 2 ^ 53) = 1 - 1 / 2 ^ 54 := by norm_num
        rw [this]
        exact h1
      · rw [div_le_iff₀ (by positivity)]
        have : (((2 ^ 53 - 1 : ℤ) : ℝ) + 1) * (1 / 2 ^ 53) = 1 := by norm_num
        rw [this]
        exact hy.le
    rw [hr]
    norm_num
  · have hb1 : (2 : ℝ) ^ (0 : ℤ) ≤ |y| := by
      rw [abs_of_pos (by linarith)]
      simpa using hy
    have hb2 : |y| < (2 : ℝ) ^ ((0 : ℤ) + 1) := by
      rw [abs_of_pos (by linarith)]
      have : (1 : ℝ) / 2 ^ 53 < 1 := by norm_num
      have h2' : (2 : ℝ) ^ ((0 : ℤ) + 1) = 2 := by norm_num
      rw [h2']
      linarith
    unfold round_double
    rw [round_to_eq_of_binade 52 (-1022) 0 _ hb1 hb2 (by norm_num)]
    have hpow : (2 : ℝ) ^ ((0 : ℤ) - ((52 : ℕ) : ℤ)) = 1 / 2 ^ 52 := by norm_num
    rw [hpow]
    have hr : round_even (y / (1 / 2 ^ 52)) = 2 ^ 52 := by
      apply round_even_of_lt_half
      · rw [le_div_iff₀ (by positivity)]
        have : (((2 ^ 52 : ℤ)) : ℝ) * (1 / 2 ^ 52) = 1 := by norm_num
        rw [this]
        exact hy
      · rw [div_lt_iff₀ (by positivity)]
        have : ((((2 ^ 52 : ℤ)) : ℝ) + 1 / 2) * (1 / 2 ^ 52) = 1 + 1 / 2 ^ 53 := by norm_num
        rw [this]
        exact h2
    rw [hr]
    norm_num

/-- The exponential of a small non-negative number rounds to 1. -/
theorem round_double_exp_small {e : ℝ} (h0 : 0 ≤ e) (h1 : e ≤ 1 / 2 ^ 56) :
    round_double (Real.exp e) = 1 := by
  apply round_double_near_one
  · have := Real.one_le_exp h0
    have : (0 : ℝ) < 1 / 2 ^ 54 := by positivity
    linarith
  · have hle1 : |e| ≤ 1 := by
      rw [abs_of_nonneg h0]
      have : (1 : ℝ) / 2 ^ 56 ≤ 1 := by norm_num
      linarith
    have hb := Real.abs_exp_sub_one_sub_id_le hle1
    have hb2 := (abs_le.mp hb).2
    have hsq : e ^ 2 ≤ (1 / 2 ^ 56) ^ 2 := pow_le_pow_left₀ h0 h1 2
    have hnum : (1 : ℝ) / 2 ^ 56 + (1 / 2 ^ 56) ^ 2 < 1 / 2 ^ 53 := by norm_num
    linarith

theorem DBL_MAX_ge_one : 1 ≤ DBL_MAX := by
  unfold DBL_MAX
  have h1 : (1 : ℝ) ≤ 2 ^ 53 - 1 := by norm_num
  have h2 : (1 : ℝ) ≤ 2 ^ 971 := one_le_pow₀ (by norm_num)
  calc (1 : ℝ) = 1 * 1 := by ring
    _ ≤ (2 ^ 53 - 1) * 2 ^ 971 := mul_le_mul h1 h2 (by norm_num) (by linarith)

/-- A rounded value between -1 and 1 stays finite. -/
theorem rounded_fin_of_abs_le_one (x : ℝ) (h : |round_double x| ≤ 1) :
    (Dbl.fin x).rounded = Dbl.fin (round_double x) := by
  have hm := DBL_MAX_ge_one
  have h2 := abs_le.mp h
  simp only [Dbl.rounded]
  rw [if_neg (by linarith), if_neg (by linarith)]

/-- Rounding keeps a lower bound that is itself a `double` above `-DBL_MAX`. -/
theorem real_le_rounded (c x : ℝ) (hc : round_double c = c) (hcm : -DBL_MAX ≤ c)
    (h : c ≤ x) : Dbl.real_le c (Dbl.fin x).rounded := by
  have hfl : c ≤ round_double x := by
    have := round_double_mono h
    rwa [hc] at this
  simp only [Dbl.rounded]
  split_ifs with h1 h2
  · trivial
  · exact absurd (lt_of_le_of_lt (le_trans hcm hfl) h2) (lt_irrefl _)
  · exact hfl

/-- The rounded likelihood of a cost below the baseline is at least 1, for every positive
finite temperature. -/
theorem liklihood_double_ge_one (old_cost cost : Dbl) (temperature : ℝ)
    (hT : 0 < temperature) (hcost : Dbl.lt cost old_cost) :
    Dbl.real_le 1 (liklihood_double old_cost cost (Dbl.fin temperature)) := by
  have hm : -DBL_MAX ≤ 0 := by linarith [DBL_MAX_ge_one]
  have hm1 : -DBL_MAX ≤ 1 := by linarith [DBL_MAX_ge_one]
  have hnT : ¬ temperature < 0 := not_lt.mpr hT.le
  -- the rounded difference is non-negative
  have hs : Dbl.real_le 0 (Dbl.sub old_cost cost).rounded := by
    cases old_cost <;> cases cost <;> simp only [Dbl.lt] at hcost <;>
      simp only [Dbl.sub, Dbl.rounded, Dbl.real_le]
    exact real_le_rounded 0 _ round_double_zero hm (by linarith)
  -- so is the rounded quotient
  have hq : Dbl.real_le 0
      (Dbl.div_real (Dbl.sub old_cost cost).rounded temperature).rounded := by
    cases hd : (Dbl.sub old_cost cost).rounded with
    | fin d =>
      rw [hd] at hs
      simp only [Dbl.real_le] at hs
      simp only [Dbl.div_real, if_neg hT.ne']
      exact real_le_rounded 0 _ round_double_zero hm (div_nonneg hs hT.le)
    | pinf => simp only [Dbl.div_real, if_neg hnT, Dbl.rounded, Dbl.real_le]
    | ninf => rw [hd] at hs; exact absurd hs (by simp [Dbl.real_le])
    | nan => rw [hd] at hs; exact absurd hs (by simp [Dbl.real_le])
  unfold liklihood_double
  simp only [Dbl.div]
  cases hd : (Dbl.div_real (Dbl.sub old_cost cost).rounded temperature).rounded with
  | fin e =>
    rw [hd] at hq
    simp only [Dbl.real_le] at hq
    simp only [Dbl.exp]
    exact real_le_rounded 1 _ round_double_one hm1 (Real.one_le_exp hq)
  | pinf => simp only [Dbl.exp, Dbl.rounded, Dbl.real_le]
  | ninf => rw [hd] at hq; exact absurd hq (by simp [Dbl.real_le])
  | nan => rw [hd] at hq; exact absurd hq (by simp [Dbl.real_le])

theorem real_lt_of_lt_of_real_le (u c : ℝ) (l : Dbl) (h1 : u < c) (h2 : Dbl.real_le c l) :
    Dbl.real_lt u l = true := by
  cases l with
  | fin a =>
    simp only [Dbl.real_le] at h2
    simp only [Dbl.real_lt, decide_eq_true_eq]
    linarith
  | pinf => rfl
  | ninf => exact absurd h2 (by simp [Dbl.real_le])
  | nan => exact absurd h2 (by simp [Dbl.real_le])

/-- When every visited corner is occupied, every visited corner is tested and good. -/
theorem all_occupied_counts (warps : Nat → Nat → Image Vec2)
    (corners : List (List ImageRef)) (r : Int) (size : ImageRef)
    (h : ∀ t ∈ visited corners, occupied warps corners r size t = true) :
    (count_repeats warps corners r size).good_corners = (visited corners).length ∧
      (count_repeats warps corners r size).corners_tested = (visited corners).length := by
  constructor
  · rw [count_repeats_eq]
    apply List.countP_eq_length.mpr
    intro t ht
    simp [h t ht, occupied_x_ne warps corners r size t (h t ht)]
  · rw [count_repeats_eq]
    apply List.countP_eq_length.mpr
    intro t ht
    simp [occupied_x_ne warps corners r size t (h t ht)]

/-- Line 250 on equal counters `t >= 1`: the quotient rounds to exactly 1.  For `t >= 2`
the sum `DBL_EPSILON + t` rounds to `t`; for `t = 1` the quotient is the `double` just below
1, which rounds to 1 as a `float`. -/
theorem float_quotient_of_equal_counts (t : ℕ) (h1 : 1 ≤ t) (h2 : t ≤ INT_MAX) :
    round_float (round_double (round_double (1 * (t : ℚ)) /
      round_double (DBL_EPSILON + (t : ℚ)))) = 1 := by
  have hlt : t < 2 ^ 53 := by
    unfold INT_MAX at h2
    omega
  have heps : DBL_EPSILON = 1 / 2 ^ 52 := by
    unfold DBL_EPSILON
    norm_num
  rw [heps, one_mul, round_double_natCast t hlt]
  rcases Nat.eq_or_lt_of_le h1 with h | h
  · rw [← h]
    simp only [Nat.cast_one]
    rw [round_double_one_add_eps]
    rw [round_double_inv_one_add_eps, round_float_one_sub_eps]
  · rw [round_double_eps_add t h hlt]
    have ht0 : (t : ℚ) ≠ 0 := by
      have : 0 < t := by omega
      positivity
    rw [div_self ht0, round_double_one, round_float_one]

theorem float_quotient_of_zero_counts :
    round_float (round_double (round_double (1 * ((0 : ℕ) : ℚ)) /
      round_double (DBL_EPSILON + ((0 : ℕ) : ℚ)))) = 0 := by
  simp [round_double_zero, round_float_zero]

theorem round_double_neg_one : round_double (-1 : ℝ) = -1 := by
  have := round_to_neg_zpow (K := ℝ) 52 (-1022) 0 (by norm_num)
  simpa [round_double] using this

theorem round_double_neg_half : round_double (-1 / 2 : ℝ) = -1 / 2 := by
  have := round_to_neg_zpow (K := ℝ) 52 (-1022) (-1) (by norm_num)
  have h2 : -(2 : ℝ) ^ (-1 : ℤ) = -1 / 2 := by norm_num
  rw [h2] at this
  exact this

theorem round_double_half : round_double (1 / 2 : ℝ) = 1 / 2 := by
  have := round_to_zpow (K := ℝ) 52 (-1022) (-1) (by norm_num)
  have h2 : (2 : ℝ) ^ (-1 : ℤ) = 1 / 2 := by norm_num
  rw [h2] at this
  exact this

theorem round_double_hundred : round_double (100 : ℝ) = 100 := by
  have := round_double_natCast (K := ℝ) 100 (by norm_num)
  simpa using this

/-- With scale 100 and decay 1 the temperature halfway through is finite and at least
50. -/
theorem temperature_halfway :
    compute_temperature_double 100 1 1 2 =
        Dbl.fin (round_double (100 * round_double (Real.exp (-1 / 2)))) ∧
      50 ≤ round_double (100 * round_double (Real.exp (-1 / 2))) := by
  have hexp : (1 : ℝ) / 2 ≤ Real.exp (-1 / 2) := by
    have := Real.add_one_le_exp (-1 / 2 : ℝ)
    linarith
  have hexp1 : Real.exp (-1 / 2) ≤ 1 := Real.exp_le_one_iff.mpr (by norm_num)
  have h3 : (1 : ℝ) / 2 ≤ round_double (Real.exp (-1 / 2)) := by
    have := round_double_mono hexp
    rwa [round_double_half] at this
  have h3u : round_double (Real.exp (-1 / 2)) ≤ 1 := round_double_le_one hexp1
  have h5 : (50 : ℝ) ≤ round_double (100 * round_double (Real.exp (-1 / 2))) := by
    have h4 : (50 : ℝ) ≤ 100 * round_double (Real.exp (-1 / 2)) := by linarith
    have := round_double_mono h4
    have h6 : round_double (50 : ℝ) = 50 := by
      have := round_double_natCast (K := ℝ) 50 (by norm_num)
      simpa using this
    rwa [h6] at this
  have h5u : round_double (100 * round_double (Real.exp (-1 / 2))) ≤ 100 := by
    have h4 : 100 * round_double (Real.exp (-1 / 2)) ≤ (100 : ℝ) := by linarith
    have := round_double_mono h4
    rwa [round_double_hundred] at this
  refine ⟨?_, h5⟩
  have hmax : (100 : ℝ) ≤ DBL_MAX := by
    unfold DBL_MAX
    have h1 : (100 : ℝ) ≤ 2 ^ 53 - 1 := by norm_num
    have h2 : (1 : ℝ) ≤ 2 ^ 971 := one_le_pow₀ (by norm_num)
    calc (100 : ℝ) = 100 * 1 := by ring
      _ ≤ (2 ^ 53 - 1) * 2 ^ 971 := mul_le_mul h1 h2 (by norm_num) (by linarith)
  have e1 : (Dbl.fin (-(1 : ℝ) * ((1 : ℤ) : ℝ))).rounded = Dbl.fin (-1) := by
    have hv : -(1 : ℝ) * ((1 : ℤ) : ℝ) = -1 := by norm_num
    rw [hv, rounded_fin_of_abs_le_one _ (by rw [round_double_neg_one]; norm_num),
      round_double_neg_one]
  have e2 : (Dbl.div_real (Dbl.fin (-1)) ((2 : ℤ) : ℝ)).rounded = Dbl.fin (-1 / 2) := by
    have h20 : ((2 : ℤ) : ℝ) ≠ 0 := by norm_num
    have hv : (-1 : ℝ) / ((2 : ℤ) : ℝ) = -1 / 2 := by norm_num
    simp only [Dbl.div_real, if_neg h20, hv]
    rw [rounded_fin_of_abs_le_one _ (by
      rw [round_double_neg_half, abs_le]
      constructor <;> norm_num), round_double_neg_half]
  have e3 : (Dbl.exp (Dbl.fin (-1 / 2))).rounded =
      Dbl.fin (round_double (Real.exp (-1 / 2))) := by
    simp only [Dbl.exp]
    apply rounded_fin_of_abs_le_one
    rw [abs_of_nonneg (by linarith)]
    exact h3u
  have e4 : (Dbl.real_mul 100 (Dbl.fin (round_double (Real.exp (-1 / 2))))).rounded =
      Dbl.fin (round_double (100 * round_double (Real.exp (-1 / 2)))) := by
    simp only [Dbl.real_mul, Dbl.rounded]
    rw [if_neg (by linarith), if_neg (by linarith)]
  unfold compute_temperature_double
  rw [e1, e2, e3, e4]

/-- The rounded likelihood of an improvement by one unit in the last place of 2, at a
temperature of 50 or more, is exactly 1. -/
theorem liklihood_double_last_place (temperature : ℝ) (hT : 50 ≤ temperature) :
    liklihood_double (Dbl.fin (2 + 1 / 2 ^ 51)) (Dbl.fin 2) (Dbl.fin temperature) =
      Dbl.fin 1 := by
  have hT0 : temperature ≠ 0 := by linarith
  have hpow51 : round_double ((1 : ℝ) / 2 ^ 51) = 1 / 2 ^ 51 := by
    have := round_to_zpow (K := ℝ) 52 (-1022) (-51) (by norm_num)
    have h2 : (2 : ℝ) ^ (-51 : ℤ) = 1 / 2 ^ 51 := by norm_num
    rw [h2] at this
    exact this
  have hpow56 : round_double ((1 : ℝ) / 2 ^ 56) = 1 / 2 ^ 56 := by
    have := round_to_zpow (K := ℝ) 52 (-1022) (-56) (by norm_num)
    have h2 : (2 : ℝ) ^ (-56 : ℤ) = 1 / 2 ^ 56 := by norm_num
    rw [h2] at this
    exact this
  have hsub : (Dbl.sub (Dbl.fin (2 + 1 / 2 ^ 51)) (Dbl.fin 2)).rounded =
      Dbl.fin (1 / 2 ^ 51) := by
    have hd : (2 + 1 / 2 ^ 51 : ℝ) - 2 = 1 / 2 ^ 51 := by ring
    simp only [Dbl.sub, hd]
    rw [rounded_fin_of_abs_le_one _ (by rw [hpow51, abs_of_pos (by positivity)]; norm_num),
      hpow51]
  have he0 : 0 ≤ round_double (1 / 2 ^ 51 / temperature) :=
    round_double_nonneg (div_nonneg (by positivity) (by linarith))
  have he1 : round_double (1 / 2 ^ 51 / temperature) ≤ 1 / 2 ^ 56 := by
    have hq : (1 : ℝ) / 2 ^ 51 / temperature ≤ 1 / 2 ^ 56 := by
      rw [div_le_iff₀ (by linarith)]
      have : (1 : ℝ) / 2 ^ 56 * 50 ≤ 1 / 2 ^ 56 * temperature :=
        mul_le_mul_of_nonneg_left hT (by positivity)
      have h3 : (1 : ℝ) / 2 ^ 51 ≤ 1 / 2 ^ 56 * 50 := by norm_num
      linarith
    have := round_double_mono hq
    rwa [hpow56] at this
  have hdiv : (Dbl.div_real (Dbl.fin (1 / 2 ^ 51)) temperature).rounded =
      Dbl.fin (round_double (1 / 2 ^ 51 / temperature)) := by
    simp only [Dbl.div_real, if_neg hT0]
    apply rounded_fin_of_abs_le_one
    rw [abs_of_nonneg he0]
    have : (1 : ℝ) / 2 ^ 56 ≤ 1 := by norm_num
    linarith
  unfold liklihood_double
  simp only [Dbl.div]
  rw [hsub, hdiv]
  simp only [Dbl.exp]
  rw [rounded_fin_of_abs_le_one _ (by rw [round_double_exp_small he0 he1]; norm_num),
    round_double_exp_small he0 he1]

/-- C2: for every depth `d` and every stream of draws, the tree returned by
`random_tree(s, d, true)` satisfies Invariant 1 (every leaf reached from the root through
`eq` edges only has `is_corner = false`), and at depth 0 it is the non-corner leaf. -/
theorem random_tree_invariant1 (D : Draws) (num_offsets : Nat) (s : ℚ) (d pos : Nat) :
    Invariant1 (random_tree D num_offsets s d true pos).1 ∧
      (random_tree D num_offsets s 0 true pos).1 = leaf false := by
  refine ⟨?_, by simp [random_tree]⟩
  rw [invariant1_iff_eq_leaf_ok]
  exact random_tree_eq_leaf_ok D num_offsets s d pos

/-- C1: the mutation system does not keep Invariant 1.  The depth-1 tree drawn by
`random_tree(s, 1, true)` satisfies it; one permutation, a branch copy at the root from `lt`
into `eq`, yields a tree whose `eq` leaf, reached through `eq` edges only, is a corner. -/
theorem branch_copy_breaks_invariant1 :
    (random_tree copy_run_draws 1 0 1 true 0) = (node (leaf true) (leaf false) (leaf false) 0, 3) ∧
      Invariant1 (node (leaf true) (leaf false) (leaf false) 0) ∧
      mutation_step copy_run_draws 1 0 1 (node (leaf true) (leaf false) (leaf false) 0) 3
        = some (node (leaf true) (leaf true) (leaf false) 0, 7) ∧
      ¬ Invariant1 (node (leaf true) (leaf true) (leaf false) 0) := by
  refine ⟨by decide, ?_, ?_, ?_⟩
  · rw [invariant1_iff_eq_leaf_ok]; decide
  · simp [mutation_step, mutate_node, num_nodes, nth_element, elements, subtree, replace, copy,
      draw_copy_source, copy_run_draws, one_third, two_thirds]
    norm_num
  · rw [invariant1_iff_eq_leaf_ok]; decide

/-- C3: for all corner sets, warp tables and radius, the counters of
`compute_repeatability` satisfy `0 <= good_corners <= corners_tested` and the returned
quotient `good_corners / (DBL_EPSILON + corners_tested)` lies in `[0, 1]`. -/
theorem compute_repeatability_bounds (warps : Nat → Nat → Image Vec2)
    (corners : List (List ImageRef)) (r : Int) (size : ImageRef) :
    0 ≤ (count_repeats warps corners r size).good_corners ∧
      (count_repeats warps corners r size).good_corners ≤
        (count_repeats warps corners r size).corners_tested ∧
      0 < DBL_EPSILON ∧
      0 ≤ compute_repeatability warps corners r size ∧
      compute_repeatability warps corners r size ≤ 1 := by
  have hle := good_le_tested warps corners r size
  have hden := repeatability_den_pos warps corners r size
  refine ⟨Nat.zero_le _, hle, DBL_EPSILON_pos, ?_, ?_⟩
  · unfold compute_repeatability
    exact div_nonneg (by positivity) hden.le
  · unfold compute_repeatability
    simp only []
    rw [div_le_one hden, one_mul]
    have h1 : ((count_repeats warps corners r size).good_corners : ℚ) ≤
        ((count_repeats warps corners r size).corners_tested : ℚ) := by exact_mod_cast hle
    linarith [DBL_EPSILON_pos]

/-- C4: `generate_disc` compares the squared distance with `radius`, not with its square:
for every radius it returns, each once, the offsets with `x * x + y * y <= radius`.  At
radius 2 the offset `(2, 0)` has squared distance `4 <= 2 * 2` and is not returned; the
result is the nine offsets with `x * x + y * y <= 2`. -/
theorem generate_disc_two_misses_offset :
    (∀ (radius : Int) (p : ImageRef),
        p ∈ generate_disc radius ↔ p.x * p.x + p.y * p.y ≤ radius) ∧
      (∀ radius : Int, (generate_disc radius).Nodup) ∧
      (2 : Int) * 2 + 0 * 0 ≤ 2 * 2 ∧ (⟨2, 0⟩ : ImageRef) ∉ generate_disc 2 ∧
      generate_disc 2 =
        [⟨-1, -1⟩, ⟨0, -1⟩, ⟨1, -1⟩, ⟨-1, 0⟩, ⟨0, 0⟩, ⟨1, 0⟩, ⟨-1, 1⟩, ⟨0, 1⟩, ⟨1, 1⟩] := by
  refine ⟨mem_generate_disc, nodup_generate_disc, by decide, by decide, by decide⟩

/-- C7: the division of `compute_repeatability` is never by zero, the denominator
`DBL_EPSILON + corners_tested` being positive; and when no corner is mappable, every corner
set being empty or every visited corner warping to the sentinel `(-1, -1)`, both counters
are 0 and the returned value is 0. -/
theorem degenerate_repeatability (warps : Nat → Nat → Image Vec2)
    (corners : List (List ImageRef)) (r : Int) (size : ImageRef) :
    0 < DBL_EPSILON + ((count_repeats warps corners r size).corners_tested : ℚ) ∧
      (((∀ cs ∈ corners, cs = []) ∨
          (∀ t ∈ visited corners, (warps t.1 t.2.1).data t.2.2 = outside)) →
        (count_repeats warps corners r size).corners_tested = 0 ∧
        (count_repeats warps corners r size).good_corners = 0 ∧
        compute_repeatability warps corners r size = 0) := by
  refine ⟨repeatability_den_pos warps corners r size, ?_⟩
  intro h
  have hall : ∀ t ∈ visited corners, (dest_of warps t).x = -1 := by
    intro t ht
    rcases h with h | h
    · have hm := (mem_visited ht).2.2.2
      rw [getD_nil_of_all_nil h] at hm
      simp at hm
    · unfold dest_of
      rw [h t ht, ir_rounded_outside]
  have ht0 : (count_repeats warps corners r size).corners_tested = 0 := by
    rw [count_repeats_eq]
    apply List.countP_eq_zero.mpr
    intro t ht
    simp [hall t ht]
  have hg0 : (count_repeats warps corners r size).good_corners = 0 :=
    Nat.le_zero.mp (ht0 ▸ good_le_tested warps corners r size)
  refine ⟨ht0, hg0, ?_⟩
  unfold compute_repeatability
  simp only []
  rw [hg0]
  simp

/-- Witness for `degenerate_repeatability`: two 4×4 frames, identity warp, no detected
corner; the score is `0 / (0 + DBL_EPSILON) = 0`. -/
theorem degenerate_repeatability_witness :
    compute_repeatability identity_warps [[], []] 3 ⟨4, 4⟩ = 0 :=
  ((degenerate_repeatability identity_warps [[], []] 3 ⟨4, 4⟩).2
    (Or.inl (by simp))).2.2

/-- C12: for every depth `d`, either flag and every stream of draws, `random_tree` returns
a full ternary tree of depth exactly `d`: internal nodes (each with its three children) down
to depth `d - 1`, every leaf at depth exactly `d`, and `(3 ^ (d + 1) - 1) / 2` nodes. -/
theorem random_tree_full (D : Draws) (num_offsets : Nat) (s : ℚ) (d : Nat)
    (is_eq_branch : Bool) (pos : Nat) :
    full_depth (random_tree D num_offsets s d is_eq_branch pos).1 d = true ∧
      (∀ (p : List Branch) (c : Bool),
        (random_tree D num_offsets s d is_eq_branch pos).1.subtree p = some (leaf c) →
          p.length = d) ∧
      (∀ (p : List Branch) (lt eq gt : tree_element) (o : Nat),
        (random_tree D num_offsets s d is_eq_branch pos).1.subtree p = some (node lt eq gt o) →
          (random_tree D num_offsets s d is_eq_branch pos).1.subtree (p ++ [Branch.lt]) = some lt ∧
          (random_tree D num_offsets s d is_eq_branch pos).1.subtree (p ++ [Branch.eq]) = some eq ∧
          (random_tree D num_offsets s d is_eq_branch pos).1.subtree (p ++ [Branch.gt]) = some gt) ∧
      (random_tree D num_offsets s d is_eq_branch pos).1.num_nodes = (3 ^ (d + 1) - 1) / 2 := by
  have hf := random_tree_full_depth D num_offsets s d is_eq_branch pos
  refine ⟨hf, full_depth_leaf_depth _ d hf, ?_, ?_⟩
  · intro p lt eq gt o hs
    refine ⟨?_, ?_, ?_⟩ <;> rw [subtree_append _ p _ _ hs] <;> simp [subtree]
  · have := full_depth_num_nodes _ d hf
    omega

/-- C16: the grow operator calls `random_tree(offset_sigma, 1)` with the default flag
`true` whatever the flag of the selected leaf, and this is the subtree seeded by the flag of
the leaf: for every depth `d >= 1` and the same draws, `random_tree(s, d, true)` and
`random_tree(s, d, false)` are the same tree. -/
theorem grow_seed_irrelevant (D : Draws) (num_offsets : Nat) (offset_sigma : ℚ)
    (fuel d : Nat) (c node_is_eq : Bool) (pos : Nat) (hd : 1 ≤ d)
    (hgrow : chosen_operator D (leaf c) node_is_eq pos = Operator.grow) :
    random_tree D num_offsets offset_sigma d true pos =
        random_tree D num_offsets offset_sigma d false pos ∧
      mutate_node D num_offsets offset_sigma fuel (leaf c) node_is_eq pos =
        some (random_tree D num_offsets offset_sigma 1 true (pos + 1)) ∧
      mutate_node D num_offsets offset_sigma fuel (leaf c) node_is_eq pos =
        some (spec_grow D num_offsets offset_sigma node_is_eq (pos + 1)) := by
  have hflag : ∀ f : Bool, random_tree D num_offsets offset_sigma 1 f (pos + 1) =
      random_tree D num_offsets offset_sigma 1 true (pos + 1) :=
    fun f => random_tree_succ_flag D num_offsets offset_sigma 0 f true (pos + 1)
  have hm : mutate_node D num_offsets offset_sigma fuel (leaf c) node_is_eq pos =
      some (random_tree D num_offsets offset_sigma 1 true (pos + 1)) := by
    have h : ((D.rand pos % 2 != 0) || node_is_eq) = true := by
      by_contra h
      simp only [chosen_operator, h] at hgrow
      simp at hgrow
    simp only [mutate_node, h, if_true]
  refine ⟨?_, hm, ?_⟩
  · obtain ⟨e, rfl⟩ := Nat.exists_eq_add_of_le hd
    rw [Nat.add_comm]
    exact random_tree_succ_flag D num_offsets offset_sigma e true false pos
  · rw [hm, spec_grow, hflag node_is_eq]

/-- Witness for `grow_seed_irrelevant`: a non-eq-reachable corner leaf whose coin says
grow, and depth 2. -/
theorem grow_seed_irrelevant_witness :
    random_tree copy_run_draws 1 0 2 true 0 = random_tree copy_run_draws 1 0 2 false 0 ∧
      mutate_node copy_run_draws 1 0 1 (leaf true) false 0 =
        some (random_tree copy_run_draws 1 0 1 true 1) ∧
      mutate_node copy_run_draws 1 0 1 (leaf true) false 0 =
        some (spec_grow copy_run_draws 1 0 false 1) :=
  grow_seed_irrelevant copy_run_draws 1 0 1 2 true false 0 (by decide) (by decide)

/-- C14: on a leaf with `node_is_eq = true` the operator is grow whatever the coin
`rand() % 2` says, never flip, and the node becomes an internal node whose three children
are leaves, the `eq` child with `is_corner = false`.  As a step of `learn_detector`: when
the selected node is such a leaf, the permuted tree has that node in its place. -/
theorem eq_leaf_always_grows (D : Draws) (num_offsets : Nat) (offset_sigma : ℚ)
    (fuel : Nat) (c : Bool) (pos : Nat) :
    chosen_operator D (leaf c) true pos = Operator.grow ∧
      mutate_node D num_offsets offset_sigma fuel (leaf c) true pos =
        some (node (leaf (D.rand (pos + 1) % 2 != 0)) (leaf false)
          (leaf (D.rand (pos + 2) % 2 != 0)) (D.rand (pos + 3) % num_offsets), pos + 4) ∧
      (∀ (new_tree : tree_element) (ptr : List Branch) (pos0 : Nat),
        new_tree.nth_element (D.rand pos0 % new_tree.num_nodes) = some (ptr, true) →
        new_tree.subtree ptr = some (leaf c) →
        mutation_step D num_offsets offset_sigma fuel new_tree pos0 =
          some (new_tree.replace ptr
            (node (leaf (D.rand (pos0 + 2) % 2 != 0)) (leaf false)
              (leaf (D.rand (pos0 + 3) % 2 != 0)) (D.rand (pos0 + 4) % num_offsets)),
            pos0 + 5)) := by
  have hm : ∀ q : Nat, mutate_node D num_offsets offset_sigma fuel (leaf c) true q =
      some (node (leaf (D.rand (q + 1) % 2 != 0)) (leaf false)
        (leaf (D.rand (q + 2) % 2 != 0)) (D.rand (q + 3) % num_offsets), q + 4) := by
    intro q
    simp [mutate_node, random_tree_one]
  refine ⟨by simp [chosen_operator], hm pos, ?_⟩
  intro new_tree ptr pos0 hn hs
  unfold mutation_step
  simp only [hn, hs, hm]

/-- Witness for `eq_leaf_always_grows`: the single-leaf tree, whose root is eq-reachable. -/
theorem eq_leaf_always_grows_witness :
    mutation_step copy_run_draws 1 0 1 (leaf false) 0 =
      some (node (leaf false) (leaf false) (leaf false) 0, 5) :=
  (eq_leaf_always_grows copy_run_draws 1 0 1 false 0).2.2 (leaf false) [] 0
    (by decide) (by decide)

/-- C15: when the operator on an internal node is the branch copy, the discarded role `r`
and the source role `c` differ, the child in role `r` afterwards is the child that was in
role `c`, the other two children and `offset_index` are unchanged; and the operation
returns as soon as one draw of the loop of line 506 differs from `r`. -/
theorem branch_copy_effect (D : Draws) (num_offsets : Nat) (offset_sigma : ℚ) (fuel : Nat)
    (lt eq gt : tree_element) (o : Nat) (node_is_eq : Bool) (pos : Nat)
    (hop : chosen_operator D (node lt eq gt o) node_is_eq pos = Operator.branch_copy) :
    (∀ (n1 : tree_element) (pos1 : Nat),
        mutate_node D num_offsets offset_sigma fuel (node lt eq gt o) node_is_eq pos =
          some (n1, pos1) →
        ∃ r c, r = D.rand (pos + 1) % 3 ∧ r < 3 ∧ c < 3 ∧ r ≠ c ∧
          child n1 r = child (node lt eq gt o) c ∧
          (∀ k, k < 3 → k ≠ r → child n1 k = child (node lt eq gt o) k) ∧
          ∃ l e g, n1 = node l e g o) ∧
      (∀ k, k < fuel → D.rand (pos + 2 + k) % 3 ≠ D.rand (pos + 1) % 3 →
        ∃ n1 pos1, mutate_node D num_offsets offset_sigma fuel (node lt eq gt o) node_is_eq pos
          = some (n1, pos1)) := by
  have h1 : ¬ D.rand_u pos < one_third := by
    intro h
    simp [chosen_operator, h] at hop
  have h2 : D.rand_u pos < two_thirds := by
    by_contra h
    simp [chosen_operator, h1, h] at hop
  constructor
  · intro n1 pos1 hm
    simp only [mutate_node, h1, h2, if_false, if_true] at hm
    cases hd : draw_copy_source D (D.rand (pos + 1) % 3) fuel (pos + 2) with
    | none => simp [hd] at hm
    | some cp =>
      obtain ⟨c, p1⟩ := cp
      obtain ⟨hc3, hcr⟩ := draw_copy_source_spec D _ fuel _ c p1 hd
      have hr3 : D.rand (pos + 1) % 3 < 3 := Nat.mod_lt _ (by decide)
      simp only [hd, copy_eq] at hm
      refine ⟨D.rand (pos + 1) % 3, c, rfl, hr3, hc3, fun h => hcr h.symm, ?_⟩
      generalize D.rand (pos + 1) % 3 = r at hm hr3 hcr
      interval_cases r <;> interval_cases c <;>
        simp at hcr <;> simp at hm <;> obtain ⟨rfl, _⟩ := hm <;>
        refine ⟨by simp [child], ?_, ⟨_, _, _, rfl⟩⟩ <;>
        intro k hk hkr <;> interval_cases k <;> simp [child] at hkr ⊢
  · intro k hk hne
    obtain ⟨c, p1, hd⟩ := draw_copy_source_some D (D.rand (pos + 1) % 3) fuel (pos + 2) k hk hne
    simp only [mutate_node, h1, h2, if_false, if_true, hd]
    split_ifs <;> exact ⟨_, _, rfl⟩

/-- Witness for `branch_copy_effect`: the branch copy at the root of a depth-1 tree, from
role 0 into role 1. -/
theorem branch_copy_effect_witness :
    ∃ n1 pos1, mutate_node copy_run_draws 1 0 1
        (node (leaf true) (leaf false) (leaf false) 0) true 4 = some (n1, pos1) :=
  (branch_copy_effect copy_run_draws 1 0 1 (leaf true) (leaf false) (leaf false) 0 true 4
    (by
      simp [chosen_operator, copy_run_draws, one_third, two_thirds]
      norm_num)).2 0 (by decide) (by decide)

/-- C18: for every tree and every value `rnd` of `rand()`, `num_nodes() >= 1`, so
`rnd % num_nodes()` divides by a non-zero count, the index `nnum` is below `num_nodes()`,
and `nth_element(nnum)` returns a node of the tree, not the null node. -/
theorem target_selection_total (new_tree : tree_element) (rnd : Nat) :
    1 ≤ new_tree.num_nodes ∧ rnd % new_tree.num_nodes < new_tree.num_nodes ∧
      ∃ ptr node_is_eq target,
        new_tree.nth_element (rnd % new_tree.num_nodes) = some (ptr, node_is_eq) ∧
        new_tree.subtree ptr = some target := by
  have hpos := num_nodes_pos new_tree
  have hlt : rnd % new_tree.num_nodes < new_tree.num_nodes := Nat.mod_lt _ hpos
  obtain ⟨ptr, flag, target, hn, hs, _⟩ := nth_element_some new_tree _ hlt
  exact ⟨hpos, hlt, ptr, flag, target, hn, hs⟩

/-- C13: a permutation of `learn_detector` whose operator is grow, flip, re-randomize test
or splat, applied at the node and flag reported by `nth_element`, returns a tree, and if the
tree satisfied Invariant 1 before, the permuted tree satisfies it, whatever node is selected
and whatever is drawn. -/
theorem non_copy_operators_keep_invariant1 (D : Draws) (num_offsets : Nat)
    (offset_sigma : ℚ) (fuel : Nat) (new_tree : tree_element) (pos : Nat) (op : Operator)
    (hinv : Invariant1 new_tree)
    (hop : step_operator D new_tree pos = some op)
    (hne : op ≠ Operator.branch_copy) :
    ∃ t1 pos1, mutation_step D num_offsets offset_sigma fuel new_tree pos = some (t1, pos1) ∧
      Invariant1 t1 := by
  rw [invariant1_iff_eq_leaf_ok] at hinv
  obtain ⟨ptr, flag, target, hn, hs, hflag⟩ :=
    nth_element_some new_tree (D.rand pos % new_tree.num_nodes)
      (Nat.mod_lt _ (num_nodes_pos new_tree))
  simp only [step_operator, hn, hs, Option.some.injEq] at hop
  subst hop
  obtain ⟨n1, pos1, hm, hok⟩ :=
    mutate_node_eq_leaf_ok D num_offsets offset_sigma fuel target flag (pos + 1) hne
  refine ⟨new_tree.replace ptr n1, pos1, by simp only [mutation_step, hn, hs, hm], ?_⟩
  rw [invariant1_iff_eq_leaf_ok, eq_leaf_ok_replace _ _ _ ⟨target, hs⟩]
  by_cases hp : eq_only ptr = true
  · simp only [hp, if_true]
    apply hok (by rw [hflag, hp])
    rw [← eq_leaf_ok_subtree new_tree ptr target hp hs]
    exact hinv
  · simp only [hp]
    exact hinv

/-- Witness for `non_copy_operators_keep_invariant1`: the single-leaf tree, grown at its
root. -/
theorem non_copy_operators_keep_invariant1_witness :
    ∃ t1 pos1, mutation_step copy_run_draws 1 0 1 (leaf false) 0 = some (t1, pos1) ∧
      Invariant1 t1 :=
  non_copy_operators_keep_invariant1 copy_run_draws 1 0 1 (leaf false) 0 Operator.grow
    ((invariant1_iff_eq_leaf_ok _).mpr (by decide)) (by decide) (by decide)

/-- C20: given `num_offsets > 0`, every internal node of a tree returned by `random_tree`
has `offset_index < num_offsets`, and every operator of `learn_detector` (grow, flip,
re-randomize test, branch copy, splat) keeps this: the node it leaves, and the permuted
tree, have all their tests in range when the tree had before. -/
theorem offset_index_in_range (D : Draws) (num_offsets : Nat) (offset_sigma : ℚ)
    (fuel : Nat) (hn : 0 < num_offsets) :
    (∀ (d : Nat) (is_eq_branch : Bool) (pos : Nat),
        offsets_in_range num_offsets
          (random_tree D num_offsets offset_sigma d is_eq_branch pos).1 = true) ∧
      (∀ (target : tree_element) (node_is_eq : Bool) (pos : Nat) (n1 : tree_element)
          (pos1 : Nat),
        offsets_in_range num_offsets target = true →
        mutate_node D num_offsets offset_sigma fuel target node_is_eq pos = some (n1, pos1) →
        offsets_in_range num_offsets n1 = true) ∧
      (∀ (new_tree : tree_element) (pos : Nat) (t1 : tree_element) (pos1 : Nat),
        offsets_in_range num_offsets new_tree = true →
        mutation_step D num_offsets offset_sigma fuel new_tree pos = some (t1, pos1) →
        offsets_in_range num_offsets t1 = true) := by
  refine ⟨fun d f pos => random_tree_offsets_in_range D num_offsets offset_sigma d f pos hn,
    fun target f pos n1 pos1 ht hm =>
      mutate_node_offsets_in_range D num_offsets offset_sigma fuel target f pos n1 pos1 hn ht hm,
    ?_⟩
  intro new_tree pos t1 pos1 ht hstep
  unfold mutation_step at hstep
  simp only [] at hstep
  cases hnth : new_tree.nth_element (D.rand pos % new_tree.num_nodes) with
  | none => simp [hnth] at hstep
  | some pf =>
    obtain ⟨ptr, flag⟩ := pf
    simp only [hnth] at hstep
    cases hs : new_tree.subtree ptr with
    | none => simp [hs] at hstep
    | some target =>
      simp only [hs] at hstep
      cases hm : mutate_node D num_offsets offset_sigma fuel target flag (pos + 1) with
      | none => simp [hm] at hstep
      | some np =>
        obtain ⟨n1, p1⟩ := np
        simp only [hm, Option.some.injEq, Prod.mk.injEq] at hstep
        rw [← hstep.1]
        apply offsets_in_range_replace _ _ _ _ ht
        exact mutate_node_offsets_in_range D num_offsets offset_sigma fuel target flag (pos + 1)
          n1 p1 hn (offsets_in_range_subtree _ _ _ _ ht hs) hm

/-- Witness for `offset_index_in_range`: one offset, and the branch-copy permutation of a
depth-1 tree. -/
theorem offset_index_in_range_witness :
    offsets_in_range 1 (random_tree copy_run_draws 1 0 1 true 0).1 = true ∧
      offsets_in_range 1 (node (leaf true) (leaf true) (leaf false) 0) = true :=
  ⟨(offset_index_in_range copy_run_draws 1 0 1 (by decide)).1 1 true 0,
    (offset_index_in_range copy_run_draws 1 0 1 (by decide)).2.2
      (node (leaf true) (leaf false) (leaf false) 0) 3
      (node (leaf true) (leaf true) (leaf false) 0) 7 (by decide)
      (by
        simp [mutation_step, mutate_node, num_nodes, nth_element, elements, subtree, replace,
          copy, draw_copy_source, copy_run_draws, one_third, two_thirds]
        norm_num)⟩

/-- C17: for every list of corners, every shape and every size, `paint_circles` returns an
image of that size in which a pixel `p` is `true` exactly when `p` lies inside the image and
`p = c + d` for a corner `c` of the list and an offset `d` of the shape; a sum `c + d`
outside the image marks nothing. -/
theorem paint_circles_spec (corners circle : List ImageRef) (size : ImageRef) :
    (paint_circles corners circle size).size = size ∧
      (∀ p, (paint_circles corners circle size).data p = true ↔
        ((0 ≤ p.x ∧ 0 ≤ p.y ∧ p.x < size.x ∧ p.y < size.y) ∧
          ∃ c ∈ corners, ∃ d ∈ circle, p = c + d)) ∧
      (∀ p, (paint_circles corners circle size).in_image p = false →
        (paint_circles corners circle size).data p = false) := by
  obtain ⟨hs, hd⟩ := paint_all_corners corners circle { size := size, data := fun _ => false }
  have hiff : ∀ p, (paint_circles corners circle size).data p = true ↔
      ((0 ≤ p.x ∧ 0 ≤ p.y ∧ p.x < size.x ∧ p.y < size.y) ∧
        ∃ c ∈ corners, ∃ d ∈ circle, p = c + d) := by
    intro p
    unfold paint_circles
    rw [hd p]
    simp [Image.in_image, and_assoc]
  refine ⟨hs, hiff, ?_⟩
  intro p hp
  cases hdata : (paint_circles corners circle size).data p with
  | false => rfl
  | true =>
    have h := ((hiff p).mp hdata).1
    have hs2 : (paint_circles corners circle size).size = size := hs
    simp [Image.in_image, hs2, h.1, h.2.1, h.2.2.1, h.2.2.2] at hp

/-- C19: if every detected corner lies inside the frame of size `size`, every warp image
`warps[i][j]`, `i ≠ j`, has that size, and every warp entry is the sentinel `(-1, -1)` or
rounds to a position inside the frame, then every read `warps[i][j][corner]` and
`detected[j][dest]` of `compute_repeatability` is within bounds: the bounds-checked loops
return the counters of the unchecked ones.  The tables of `load_warps` with `prune` set
satisfy the two hypotheses on the warps. -/
theorem compute_repeatability_reads_in_bounds (warps : Nat → Nat → Image Vec2)
    (corners : List (List ImageRef)) (r : Int) (size : ImageRef)
    (hc : ∀ cs ∈ corners, ∀ c ∈ cs, in_frame size c = true)
    (hw : ∀ i j, i < corners.length → j < corners.length → i ≠ j → (warps i j).size = size)
    (hp : ∀ i j, i < corners.length → j < corners.length → i ≠ j → ∀ p,
      in_frame size p = true →
        (warps i j).data p = outside ∨ in_frame size (ir_rounded ((warps i j).data p)) = true) :
    count_repeats_checked warps corners r size = some (count_repeats warps corners r size) ∧
      (∀ t ∈ visited corners,
        (warps t.1 t.2.1).in_image t.2.2 = true ∧
        ((dest_of warps t).x ≠ -1 →
          ∃ im, (detected_images corners r size).get? t.2.1 = some im ∧
            im.in_image (dest_of warps t) = true)) ∧
      (∀ (raw : Nat → Nat → ImageRef → Vec2) (i j : Nat) (p : ImageRef), i ≠ j →
        (load_warps raw size i j).size = size ∧
        ((load_warps raw size i j).data p = outside ∨
          in_frame size (ir_rounded ((load_warps raw size i j).data p)) = true)) := by
  have hcorner : ∀ i, ∀ c ∈ corners.getD i [], in_frame size c = true := by
    intro i c hci
    by_cases hi : i < corners.length
    · rw [List.getD_eq_getElem _ _ hi] at hci
      exact hc _ (List.getElem_mem hi) c hci
    · rw [List.getD_eq_default _ _ (Nat.le_of_not_lt hi)] at hci
      simp at hci
  refine ⟨?_, ?_, ?_⟩
  · unfold count_repeats_checked count_repeats
    simp only []
    apply foldl_checked
    intro i hi acc
    apply foldl_checked
    intro j hj acc2
    by_cases hij : i = j
    · simp [hij]
    · simp only [hij, if_false]
      apply foldl_checked
      intro c hcm acc3
      have hi2 := List.mem_range.mp hi
      have hj2 := List.mem_range.mp hj
      exact test_corner_checked_eq warps corners r size i j c acc3 hj2 (hcorner i c hcm)
        (hw i j hi2 hj2 hij) (hp i j hi2 hj2 hij c (hcorner i c hcm))
  · intro t ht
    obtain ⟨hi, hj, hij, hcm⟩ := mem_visited ht
    have hcf := hcorner t.1 t.2.2 hcm
    refine ⟨by rw [in_image_eq_in_frame, hw _ _ hi hj hij]; exact hcf, ?_⟩
    intro hx
    refine ⟨_, (detected_get corners r size t.2.1 hj).1, ?_⟩
    rw [in_image_eq_in_frame,
      (paint_circles_marks_inside (corners.getD t.2.1 []) (generate_disc r) size).1]
    rcases hp _ _ hi hj hij t.2.2 hcf with h | h
    · unfold dest_of at hx
      rw [h, ir_rounded_outside] at hx
      exact absurd rfl hx
    · exact h
  · intro raw i j p hij
    simp only [load_warps, hij, if_false]
    exact ⟨trivial, prune_entry_cases size (raw i j p)⟩

/-- Witness for `compute_repeatability_reads_in_bounds`: two 4×4 frames with the corner
`(1, 1)` each, and the pruned tables loaded from the identity warp. -/
theorem compute_repeatability_reads_in_bounds_witness :
    count_repeats_checked
        (load_warps (fun _ _ p => ((p.x : ℚ), (p.y : ℚ))) ⟨4, 4⟩)
        [[⟨1, 1⟩], [⟨1, 1⟩]] 0 ⟨4, 4⟩ =
      some (count_repeats
        (load_warps (fun _ _ p => ((p.x : ℚ), (p.y : ℚ))) ⟨4, 4⟩)
        [[⟨1, 1⟩], [⟨1, 1⟩]] 0 ⟨4, 4⟩) :=
  (compute_repeatability_reads_in_bounds
    (load_warps (fun _ _ p => ((p.x : ℚ), (p.y : ℚ))) ⟨4, 4⟩)
    [[⟨1, 1⟩], [⟨1, 1⟩]] 0 ⟨4, 4⟩
    (by
      intro cs hcs c hc
      simp only [List.mem_cons, List.mem_singleton, List.not_mem_nil, or_false, or_self] at hcs
      subst hcs
      simp only [List.mem_singleton] at hc
      subst hc
      decide)
    (by
      intro i j _ _ hij
      simp [load_warps, hij])
    (by
      intro i j _ _ hij p _
      simp only [load_warps, hij, if_false]
      exact prune_entry_cases _ _)).1

/-- C11, as stated, fails: with the temperature scale -1, the first iteration on a depth-1
initial tree of finite cost 10 computes the likelihood `exp(-inf) = 0`, the draw
`rand_u() = 0` is not below it, the candidate is rejected and `old_cost` is still
`HUGE_VAL`, not the cost of the initial tree. -/
theorem first_iteration_rejected_at_negative_scale :
    learn_detector_start copy_run_draws 1 0 1 0 =
        { tree := node (leaf true) (leaf false) (leaf false) 0, old_cost := HUGE_VAL,
          first_time := true, pos := 3 } ∧
      learn_detector_body copy_run_draws 1 0 1 (-1) 1 1 (fun _ => Dbl.fin 10) 0
          (learn_detector_start copy_run_draws 1 0 1 0) =
        some { tree := node (leaf true) (leaf false) (leaf false) 0, old_cost := HUGE_VAL,
               first_time := false, pos := 4 } ∧
      HUGE_VAL ≠ Dbl.fin 10 := by
  have hstart : learn_detector_start copy_run_draws 1 0 1 0 =
      { tree := node (leaf true) (leaf false) (leaf false) 0, old_cost := HUGE_VAL,
        first_time := true, pos := 3 } := by
    simp [learn_detector_start, random_tree, copy_run_draws]
  refine ⟨hstart, ?_, ?_⟩
  · have hT : compute_temperature (-1) 1 ((0 : Nat) : Int) ((1 : Nat) : Int) = -1 := by
      simp [compute_temperature]
    rw [hstart]
    simp only [learn_detector_body, working_copy, copy, hT, liklihood_dbl, HUGE_VAL, Dbl.sub,
      Dbl.div_real, Dbl.exp, Dbl.real_lt]
    simp [copy_run_draws]
  · intro h
    cases h

/-- C11, amended: on the first iteration no mutation is applied and no draw is consumed
before scoring, so the tree scored on iteration 0 is the initial tree.  When the temperature
scale is positive and the cost of that tree is not NaN, `old_cost` after iteration 0 is the
cost of the unmutated initial tree, whatever the tree and the draws: a finite cost is
accepted against `HUGE_VAL`, and an infinite cost is rejected and equals the `HUGE_VAL` that
`old_cost` keeps.  The accepted tree is the initial tree in both cases. -/
theorem first_iteration_baseline (D : Draws) (num_offsets : Nat) (offset_sigma : ℚ)
    (fuel : Nat) (scale alpha : ℝ) (iterations : Nat) (cost_of : tree_element → Dbl)
    (v0 : LoopVars) (hfirst : v0.first_time = true) (hold : v0.old_cost = HUGE_VAL)
    (hscale : 0 < scale) (hnan : cost_of v0.tree ≠ Dbl.nan) :
    working_copy D num_offsets offset_sigma fuel v0.first_time v0.tree v0.pos =
        some (v0.tree, v0.pos) ∧
      ∃ v1, learn_detector_body D num_offsets offset_sigma fuel scale alpha iterations cost_of
          0 v0 = some v1 ∧
        v1.tree = v0.tree ∧ v1.old_cost = cost_of v0.tree ∧ v1.first_time = false := by
  have hw : working_copy D num_offsets offset_sigma fuel v0.first_time v0.tree v0.pos =
      some (v0.tree, v0.pos) := by
    simp [working_copy, hfirst, copy_eq]
  have hT : compute_temperature scale alpha ((0 : Nat) : Int) (iterations : Int) = scale := by
    simpa using compute_temperature_zero scale alpha (iterations : Int)
  have hneg : ¬ scale < 0 := not_lt.mpr hscale.le
  refine ⟨hw, ?_⟩
  unfold learn_detector_body
  rw [hw]
  simp only [hT, hold, HUGE_VAL, liklihood_dbl]
  cases hc : cost_of v0.tree with
  | fin c => simp [Dbl.sub, Dbl.div_real, Dbl.exp, Dbl.real_lt, hneg]
  | pinf => simp [Dbl.sub, Dbl.div_real, Dbl.exp, Dbl.real_lt, hold, HUGE_VAL]
  | ninf => simp [Dbl.sub, Dbl.div_real, Dbl.exp, Dbl.real_lt, hneg]
  | nan => exact absurd hc hnan

/-- Witness for `first_iteration_baseline`: the loop entered with a depth-1 initial tree of
cost 10 and the temperature scale 1. -/
theorem first_iteration_baseline_witness :
    ∃ v1, learn_detector_body copy_run_draws 1 0 1 1 1 2 (fun _ => Dbl.fin 10) 0
        (learn_detector_start copy_run_draws 1 0 1 0) = some v1 ∧
      v1.tree = (learn_detector_start copy_run_draws 1 0 1 0).tree ∧
      v1.old_cost = Dbl.fin 10 ∧ v1.first_time = false :=
  (first_iteration_baseline copy_run_draws 1 0 1 1 1 2 (fun _ => Dbl.fin 10)
    (learn_detector_start copy_run_draws 1 0 1 0) rfl rfl one_pos
    (by intro h; cases h)).2

/-- C6, as stated, fails: two 4×4 frames under the identity warp with no detected corner.
Every detected corner (there is none) maps to a marked location, and the returned `float`
is 0, not 1. -/
theorem no_corners_repeatability_not_one :
    (∀ t ∈ visited [[], []], occupied identity_warps [[], []] 3 ⟨4, 4⟩ t = true) ∧
      compute_repeatability_float identity_warps [[], []] 3 ⟨4, 4⟩ = 0 ∧
      compute_repeatability_float identity_warps [[], []] 3 ⟨4, 4⟩ ≠ 1 := by
  have hv : visited [[], []] = [] := by decide
  have h0 : compute_repeatability_float identity_warps [[], []] 3 ⟨4, 4⟩ = 0 := by
    unfold compute_repeatability_float
    rw [count_repeats_eq, hv]
    simpa using float_quotient_of_zero_counts
  refine ⟨?_, h0, ?_⟩
  · intro t ht
    rw [hv] at ht
    simp at ht
  · rw [h0]
    norm_num

/-- C6, amended: when every detected corner in every frame maps, under the warp to every
other frame, to a location marked in that frame, and the counters stay within `int`, every
visited corner is tested and good, and `compute_repeatability` returns exactly 1.0 as soon
as one corner is visited; it returns 0 when none is. -/
theorem all_occupied_repeatability (warps : Nat → Nat → Image Vec2)
    (corners : List (List ImageRef)) (r : Int) (size : ImageRef)
    (h : ∀ t ∈ visited corners, occupied warps corners r size t = true)
    (hint : (visited corners).length ≤ INT_MAX) :
    (count_repeats warps corners r size).good_corners = (visited corners).length ∧
      (count_repeats warps corners r size).corners_tested = (visited corners).length ∧
      (visited corners ≠ [] → compute_repeatability_float warps corners r size = 1) ∧
      (visited corners = [] → compute_repeatability_float warps corners r size = 0) := by
  obtain ⟨hg, ht⟩ := all_occupied_counts warps corners r size h
  refine ⟨hg, ht, ?_, ?_⟩
  · intro hne
    unfold compute_repeatability_float
    simp only []
    rw [hg, ht]
    exact float_quotient_of_equal_counts _ (List.length_pos.mpr hne) hint
  · intro hnil
    unfold compute_repeatability_float
    simp only []
    rw [hg, ht, hnil]
    exact float_quotient_of_zero_counts

/-- Witness for `all_occupied_repeatability`: two 4×4 frames, the corner `(1, 1)` in each,
identity warp, radius 0; two corners are visited and the score is 1. -/
theorem all_occupied_repeatability_witness :
    (count_repeats identity_warps [[⟨1, 1⟩], [⟨1, 1⟩]] 0 ⟨4, 4⟩).good_corners = 2 ∧
      compute_repeatability_float identity_warps [[⟨1, 1⟩], [⟨1, 1⟩]] 0 ⟨4, 4⟩ = 1 := by
  have hv : visited [[⟨1, 1⟩], [⟨1, 1⟩]] = [(0, 1, ⟨1, 1⟩), (1, 0, ⟨1, 1⟩)] := by decide
  have h1 : round_coordinate 1 = 1 := by simpa using round_coordinate_intCast 1
  have hocc : ∀ t ∈ visited [[⟨1, 1⟩], [⟨1, 1⟩]],
      occupied identity_warps [[⟨1, 1⟩], [⟨1, 1⟩]] 0 ⟨4, 4⟩ t = true := by
    intro t ht
    rw [hv] at ht
    simp only [List.mem_cons, List.mem_singleton, List.not_mem_nil, or_false] at ht
    have hd : ∀ i j : Nat, dest_of identity_warps (i, j, (⟨1, 1⟩ : ImageRef)) = ⟨1, 1⟩ := by
      intro i j
      simp [dest_of, identity_warps, ir_rounded, h1]
    rcases ht with rfl | rfl
    · unfold occupied
      rw [hd]
      decide
    · unfold occupied
      rw [hd]
      decide
  have key := all_occupied_repeatability identity_warps [[⟨1, 1⟩], [⟨1, 1⟩]] 0 ⟨4, 4⟩ hocc
    (by rw [hv]; decide)
  refine ⟨?_, key.2.2.1 (by rw [hv]; simp)⟩
  rw [key.1, hv]
  rfl

/-- C8, as stated, fails: at iteration 1 of 2 with scale 100 and decay 1 the temperature is
finite and positive; the candidate costs 2 and the baseline is the next `double` above 2, so
the cost is strictly less; the rounded likelihood is exactly 1, not above 1, and the draw
`rand_u() = 1` is not below it: the candidate is rejected. -/
theorem tiny_improvement_rejected_at_unit_draw :
    compute_temperature_double 100 1 1 2 =
        Dbl.fin (round_double (100 * round_double (Real.exp (-1 / 2)))) ∧
      0 < round_double (100 * round_double (Real.exp (-1 / 2))) ∧
      Dbl.lt (Dbl.fin 2) (Dbl.fin (2 + 1 / 2 ^ 51)) ∧
      (0 ≤ unit_draw_run.rand_u 7 ∧ unit_draw_run.rand_u 7 ≤ 1) ∧
      liklihood_double (Dbl.fin (2 + 1 / 2 ^ 51)) (Dbl.fin 2)
          (compute_temperature_double 100 1 1 2) = Dbl.fin 1 ∧
      learn_detector_body_double unit_draw_run 1 0 1 100 1 2 (fun _ => Dbl.fin 2) 1
          { tree := node (leaf true) (leaf false) (leaf false) 0,
            old_cost := Dbl.fin (2 + 1 / 2 ^ 51), first_time := false, pos := 3 } =
        some { tree := node (leaf true) (leaf false) (leaf false) 0,
               old_cost := Dbl.fin (2 + 1 / 2 ^ 51), first_time := false, pos := 8 } := by
  obtain ⟨hT, h50⟩ := temperature_halfway
  have hlik := liklihood_double_last_place _ h50
  refine ⟨hT, by linarith, ?_, by simp [unit_draw_run], by rw [hT]; exact hlik, ?_⟩
  · simp only [Dbl.lt]
    have : (0 : ℝ) < 1 / 2 ^ 51 := by positivity
    linarith
  · have hw : working_copy unit_draw_run 1 0 1 false
        (node (leaf true) (leaf false) (leaf false) 0) 3 =
        some (node (leaf true) (leaf true) (leaf false) 0, 7) := by
      simp [working_copy, mutation_step, mutate_node, num_nodes, nth_element, elements,
        subtree, replace, copy, draw_copy_source, unit_draw_run, one_third, two_thirds]
      norm_num
    have hT2 : compute_temperature_double 100 1 ((1 : ℕ) : ℤ) ((2 : ℕ) : ℤ) =
        compute_temperature_double 100 1 1 2 := by norm_num
    simp only [learn_detector_body_double, hw, hT2, hT, hlik, Dbl.real_lt]
    simp [unit_draw_run]

/-- C8, amended: in an iteration whose temperature is positive and finite and whose
candidate costs strictly less than the baseline `old_cost`, `HUGE_VAL` included, the rounded
likelihood is at least 1, and the candidate is accepted for every draw `rand_u() < 1`; a
draw equal to 1 is accepted when the rounded likelihood exceeds 1. -/
theorem improvement_accepted_below_one (D : Draws) (num_offsets : Nat) (offset_sigma : ℚ)
    (fuel : Nat) (scale alpha : ℝ) (iterations : Nat) (cost_of : tree_element → Dbl)
    (itnum : Nat) (v : LoopVars) (new_tree : tree_element) (pos : Nat) (t : ℝ)
    (hprop : working_copy D num_offsets offset_sigma fuel v.first_time v.tree v.pos =
      some (new_tree, pos))
    (hT : compute_temperature_double scale alpha (itnum : Int) (iterations : Int) = Dbl.fin t)
    (ht : 0 < t)
    (hcost : Dbl.lt (cost_of new_tree) v.old_cost) :
    Dbl.real_le 1 (liklihood_double v.old_cost (cost_of new_tree) (Dbl.fin t)) ∧
      (D.rand_u pos < 1 →
        learn_detector_body_double D num_offsets offset_sigma fuel scale alpha iterations
            cost_of itnum v =
          some { tree := new_tree, old_cost := cost_of new_tree, first_time := false,
                 pos := pos + 1 }) ∧
      (D.rand_u pos ≤ 1 →
        Dbl.real_lt 1 (liklihood_double v.old_cost (cost_of new_tree) (Dbl.fin t)) = true →
        learn_detector_body_double D num_offsets offset_sigma fuel scale alpha iterations
            cost_of itnum v =
          some { tree := new_tree, old_cost := cost_of new_tree, first_time := false,
                 pos := pos + 1 }) := by
  have hge := liklihood_double_ge_one v.old_cost (cost_of new_tree) t ht hcost
  refine ⟨hge, ?_, ?_⟩
  · intro hu
    have hu1 : ((D.rand_u pos : ℚ) : ℝ) < 1 := by exact_mod_cast hu
    have hlt := real_lt_of_lt_of_real_le _ 1 _ hu1 hge
    simp only [learn_detector_body_double, hprop, hT, hlt, if_true]
  · intro hu hl
    have hu1 : ((D.rand_u pos : ℚ) : ℝ) ≤ 1 := by exact_mod_cast hu
    have hlt : Dbl.real_lt ((D.rand_u pos : ℚ) : ℝ)
        (liklihood_double v.old_cost (cost_of new_tree) (Dbl.fin t)) = true := by
      cases hd : liklihood_double v.old_cost (cost_of new_tree) (Dbl.fin t) with
      | fin a =>
        rw [hd] at hl
        simp only [Dbl.real_lt, decide_eq_true_eq] at hl ⊢
        linarith
      | pinf => rfl
      | ninf => rw [hd] at hl; simp [Dbl.real_lt] at hl
      | nan => rw [hd] at hl; simp [Dbl.real_lt] at hl
    simp only [learn_detector_body_double, hprop, hT, hlt, if_true]

/-- Witness for `improvement_accepted_below_one`: iteration 1 of 2 at scale 100 and decay
1; the baseline is still `HUGE_VAL`, the candidate is the branch-copy permutation of a
depth-1 tree and costs 2, the draw is 0. -/
theorem improvement_accepted_below_one_witness :
    learn_detector_body_double copy_run_draws 1 0 1 100 1 2 (fun _ => Dbl.fin 2) 1
        { tree := node (leaf true) (leaf false) (leaf false) 0, old_cost := HUGE_VAL,
          first_time := false, pos := 3 } =
      some { tree := node (leaf true) (leaf true) (leaf false) 0, old_cost := Dbl.fin 2,
             first_time := false, pos := 8 } :=
  (improvement_accepted_below_one copy_run_draws 1 0 1 100 1 2 (fun _ => Dbl.fin 2) 1
    { tree := node (leaf true) (leaf false) (leaf false) 0, old_cost := HUGE_VAL,
      first_time := false, pos := 3 }
    (node (leaf true) (leaf true) (leaf false) 0) 7
    (round_double (100 * round_double (Real.exp (-1 / 2))))
    (by
      simp [working_copy, mutation_step, mutate_node, num_nodes, nth_element, elements,
        subtree, replace, copy, draw_copy_source, copy_run_draws, one_third, two_thirds]
      norm_num)
    (by
      have h2 : compute_temperature_double 100 1 ((1 : ℕ) : ℤ) ((2 : ℕ) : ℤ) =
          compute_temperature_double 100 1 1 2 := by norm_num
      rw [h2]
      exact temperature_halfway.1)
    (by linarith [temperature_halfway.2])
    (by simp [Dbl.lt, HUGE_VAL])).2.1 (by simp [copy_run_draws])

end FastER
